import Mathlib

/-!
# Verification of the nrepl-mcp-server bencode codec and nREPL client logic

This development embeds the TypeScript sources of the `nrepl-mcp-server`
repository (`src/bencode.ts` and `src/nrepl-client.ts`) into Lean and proves
or refutes the specification claims about them.

JavaScript strings are modelled as lists of UTF-16 code units (`JStr`),
because the TypeScript code indexes strings per code unit (`charCodeAt`,
`charAt`, `slice`, `indexOf` all operate on code units).  JavaScript numbers
appearing here are either `NaN` (producible by `parseInt`) or integers,
modelled by `JsNumber`.  Fallible code returns `Except`.
-/

/-- A JavaScript string: a sequence of UTF-16 code units. -/
abbrev JStr := List Nat

/-- Convert a Lean string literal (which contains only code points below
`0x10000` wherever we use it) to its JavaScript code-unit list. -/
def su (s : String) : JStr := s.data.map Char.toNat

/-- Per-code-unit byte count used by `getUTF8ByteLength` in `bencode.ts`:
`charCode < 128 → 1`, `< 2048 → 2`, `< 65536 → 3`, else `4`.  Note that
`charCodeAt` never returns a value `≥ 65536`, so the last branch is
unreachable from JavaScript; we keep it to mirror the source. -/
def utf8UnitLen (u : Nat) : Nat :=
  if u < 128 then 1 else if u < 2048 then 2 else if u < 65536 then 3 else 4

/-- `getUTF8ByteLength(str)` from `bencode.ts`: sums `utf8UnitLen` over the
UTF-16 code units of the string. -/
def getUTF8ByteLength (s : JStr) : Nat := (s.map utf8UnitLen).sum

/-- The Unicode code points denoted by a UTF-16 code-unit sequence:
a high surrogate followed by a low surrogate combines into one
supplementary code point; everything else passes through. -/
def codePointsOf : JStr → List Nat
  | [] => []
  | [u] => [u]
  | u :: u2 :: rest =>
    if 0xD800 ≤ u ∧ u < 0xDC00 then
      if 0xDC00 ≤ u2 ∧ u2 < 0xE000 then
        (0x10000 + (u - 0xD800) * 1024 + (u2 - 0xDC00)) :: codePointsOf rest
      else
        u :: codePointsOf (u2 :: rest)
    else
      u :: codePointsOf (u2 :: rest)

/-- The number of bytes a Unicode code point occupies in UTF-8. -/
def utf8CpLen (c : Nat) : Nat :=
  if c < 128 then 1 else if c < 2048 then 2 else if c < 65536 then 3 else 4

/-- The true UTF-8 byte count of a JavaScript string (what
`Buffer.byteLength(str, 'utf8')` computes for well-formed strings). -/
def utf8TrueByteLength (s : JStr) : Nat := ((codePointsOf s).map utf8CpLen).sum

/-- A JavaScript number as produced by the integer paths of the codec:
either an integer or `NaN` (the result of `parseInt` on non-numeric text). -/
inductive JsNumber where
  | nan
  | int (i : Int)
deriving DecidableEq, Repr

/-- Is a code unit an ASCII digit (`'0'..'9'`)? -/
def isDigitU (u : Nat) : Bool := decide (48 ≤ u) && decide (u ≤ 57)

/-- Is a code unit JavaScript whitespace (as skipped by `parseInt`)? -/
def isJsWhitespaceU (u : Nat) : Bool :=
  u = 32 || u = 9 || u = 10 || u = 11 || u = 12 || u = 13 || u = 160 || u = 0xFEFF

/-- Numeric value of a list of ASCII-digit code units, most significant
first: `digitsToNat "042" = 42`. -/
def digitsToNat (ds : List Nat) : Nat := ds.foldl (fun a u => 10 * a + (u - 48)) 0

/-- Digit part of `parseInt(s, 10)`: take the leading ASCII digits; no
digits means `NaN`. -/
def parseDigitsJS (l : JStr) : JsNumber :=
  match l.takeWhile isDigitU with
  | [] => .nan
  | ds => .int (digitsToNat ds)

/-- Negate a JavaScript number (`NaN` stays `NaN`). -/
def jsNeg : JsNumber → JsNumber
  | .nan => .nan
  | .int i => .int (-i)

/-- Sign-and-digits part of `parseInt(s, 10)`, after whitespace removal:
an optional `+`/`-` sign followed by leading decimal digits. -/
def parseIntTrimmed : JStr → JsNumber
  | [] => .nan
  | u :: rest =>
    if u = 43 then parseDigitsJS rest
    else if u = 45 then jsNeg (parseDigitsJS rest)
    else parseDigitsJS (u :: rest)

/-- Model of JavaScript `parseInt(s, 10)`: skip leading whitespace, read an
optional sign, then leading decimal digits; `NaN` if there are none.
Leading zeros are accepted (`parseInt("007") = 7`) and trailing garbage is
ignored. -/
def parseIntJS (s : JStr) : JsNumber :=
  parseIntTrimmed (s.dropWhile isJsWhitespaceU)

/-- Decimal digits of a positive number, most significant first, with fuel
(the fuel argument only serves termination; `fuel ≥ n` is always enough). -/
def natDecAux : Nat → Nat → List Nat
  | 0, _ => []
  | _ + 1, 0 => []
  | f + 1, n => natDecAux f (n / 10) ++ [n % 10]

/-- The decimal representation of a natural number as ASCII-digit code
units, as produced by JavaScript number-to-string conversion. -/
def natToUnits (n : Nat) : JStr :=
  if n = 0 then [48] else (natDecAux n n).map (· + 48)

/-- JavaScript string interpolation `${value}` for the numbers the encoder
meets: an integer renders as optional `-` plus decimal digits; `NaN`
renders as `"NaN"`. -/
def numToUnits : JsNumber → JStr
  | .nan => [78, 97, 78]
  | .int i => if i < 0 then 45 :: natToUnits i.natAbs else natToUnits i.natAbs

/-- First index `≥ 0` of code unit `c` in a list, if any. -/
def firstIdxOf (c : Nat) : JStr → Option Nat
  | [] => none
  | u :: us => if u = c then some 0 else (firstIdxOf c us).map (· + 1)

/-- Model of `String.prototype.indexOf(c, pos)`: first index `≥ pos`
holding code unit `c`. -/
def indexOfFrom (data : JStr) (c : Nat) (pos : Nat) : Option Nat :=
  (firstIdxOf c (data.drop pos)).map (pos + ·)

/-- Model of `String.prototype.slice(a, b)` for `a ≤ b` within bounds. -/
def jsSlice (data : JStr) (a b : Nat) : JStr := (data.take b).drop a

/-!
## The bencode value type

`BencodeValue` from `bencode.ts` is
`string | number | BencodeValue[] | { [key: string]: BencodeValue }`.
We use a mutual inductive so that all recursions stay structural (and hence
compute by `rfl`).  `BList`/`BEntries` are isomorphic to
`List BVal` / `List (JStr × BVal)` via the conversions below; dictionary
entries are kept in insertion order, mirroring a JavaScript object. -/

mutual
inductive BVal where
  | str (s : JStr)
  | num (n : JsNumber)
  | list (xs : BList)
  | dict (es : BEntries)
deriving Repr

inductive BList where
  | nil
  | cons (v : BVal) (rest : BList)
deriving Repr

inductive BEntries where
  | nil
  | cons (k : JStr) (v : BVal) (rest : BEntries)
deriving Repr
end

def ofListL : List BVal → BList
  | [] => .nil
  | v :: vs => .cons v (ofListL vs)

def toListL : BList → List BVal
  | .nil => []
  | .cons v vs => v :: toListL vs

def ofListE : List (JStr × BVal) → BEntries
  | [] => .nil
  | e :: es => .cons e.1 e.2 (ofListE es)

def toListE : BEntries → List (JStr × BVal)
  | .nil => []
  | .cons k v es => (k, v) :: toListE es

/-- Convenience constructor: a dictionary from a list of pairs. -/
def bdict (l : List (JStr × BVal)) : BVal := .dict (ofListE l)

/-- Convenience constructor: a list value from a list of values. -/
def blist (l : List BVal) : BVal := .list (ofListL l)

/-!
## The key ordering used by the encoder

`bencode.ts` sorts dictionary entries with
`Object.entries(value).sort(([a], [b]) => a.localeCompare(b))`.
`localeCompare` uses the default locale collation (ICU).  We model the
fragment of that collation relevant to this program: letters compare
case-insensitively at primary strength (with lowercase before uppercase at
tertiary strength), digits sort before letters, ASCII punctuation before
digits, and all other units after letters.  On the all-lowercase ASCII keys
used by the nREPL protocol this coincides with code-unit order, and the
resulting comparator is total and antisymmetric, which is all the proofs
rely on. -/

/-- Primary collation weight of a code unit. -/
def collPrimary (u : Nat) : Nat :=
  if 48 ≤ u ∧ u ≤ 57 then 2000 + (u - 48)
  else if 97 ≤ u ∧ u ≤ 122 then 3000 + (u - 97)
  else if 65 ≤ u ∧ u ≤ 90 then 3000 + (u - 65)
  else if u < 128 then 1000 + u
  else 10000 + u

/-- Tertiary (case) collation weight of a code unit. -/
def collTertiary (u : Nat) : Nat := if 65 ≤ u ∧ u ≤ 90 then 1 else 0

/-- Lexicographic comparison of lists of naturals. -/
def natListCompare : List Nat → List Nat → Ordering
  | [], [] => .eq
  | [], _ :: _ => .lt
  | _ :: _, [] => .gt
  | a :: as, b :: bs =>
    match compare a b with
    | .eq => natListCompare as bs
    | o => o

/-- Model of `a.localeCompare(b)`'s sign: compare the primary weight
sequences, then the tertiary ones. -/
def jsLocaleCompare (a b : JStr) : Ordering :=
  match natListCompare (a.map collPrimary) (b.map collPrimary) with
  | .eq => natListCompare (a.map collTertiary) (b.map collTertiary)
  | o => o

/-- "`a` sorts no later than `b`": the comparator returned a non-positive
value, so the sort keeps `a` before `b`. -/
def keyLe (a b : JStr) : Bool := jsLocaleCompare a b ≠ .gt

/-- Insert one entry into an already sorted entry list, before any entry
whose key compares equal (so the resulting sort is stable, like
`Array.prototype.sort`). -/
def insertEntry (e : JStr × BVal) : List (JStr × BVal) → List (JStr × BVal)
  | [] => [e]
  | f :: fs => if keyLe e.1 f.1 then e :: f :: fs else f :: insertEntry e fs

/-- The sort performed by `Object.entries(value).sort((a, b) =>
a.localeCompare(b))`: a stable comparison sort on the keys. -/
def sortPairs : List (JStr × BVal) → List (JStr × BVal)
  | [] => []
  | e :: es => insertEntry e (sortPairs es)

/-!
## The encoder

`BencodeEncoder.encode` of `bencode.ts`:

  * string `s` → `${getUTF8ByteLength(s)}:${s}`
  * number `n` → `i${n}e`
  * array `xs` → `l` + each element encoded + `e`
  * object `es` → `d` + entries sorted by key, each `encode(k) + encode(v)` + `e`

The sort happens at every dictionary node.  Since the comparator looks only
at keys, this equals first canonicalizing the tree bottom-up (`canon`,
which sorts every dictionary) and then emitting it in order (`encodeRaw`).
We define `encode := encodeRaw ∘ canon` (so that all recursions stay
structural) and prove below (`encode_str_eq` … `encode_dict_eq`) that
`encode` satisfies the source's four defining equations literally. -/

/-- The string case of the encoder: `${byteLength}:${value}`. -/
def encStr (s : JStr) : JStr := natToUnits (getUTF8ByteLength s) ++ 58 :: s

mutual
/-- Emission phase of the encoder: like `BencodeEncoder.encode` but with
dictionary entries emitted in the order given (the sorting phase is
`canon`). -/
def encodeRaw : BVal → JStr
  | .str s => encStr s
  | .num n => 105 :: (numToUnits n ++ [101])
  | .list xs => 108 :: (encodeRawList xs ++ [101])
  | .dict es => 100 :: (encodeRawEntries es ++ [101])

def encodeRawList : BList → JStr
  | .nil => []
  | .cons v vs => encodeRaw v ++ encodeRawList vs

def encodeRawEntries : BEntries → JStr
  | .nil => []
  | .cons k v es => encStr k ++ encodeRaw v ++ encodeRawEntries es
end

mutual
/-- Sorting phase of the encoder: sort every dictionary's entries by key,
bottom-up.  `canon` is also the canonical form under which two values are
equal exactly when they are equal as JavaScript values (dictionaries
compared as key/value maps). -/
def canon : BVal → BVal
  | .str s => .str s
  | .num n => .num n
  | .list xs => .list (canonList xs)
  | .dict es => .dict (ofListE (sortPairs (toListE (canonEntries es))))

def canonList : BList → BList
  | .nil => .nil
  | .cons v vs => .cons (canon v) (canonList vs)

def canonEntries : BEntries → BEntries
  | .nil => .nil
  | .cons k v es => .cons k (canon v) (canonEntries es)
end

/-- `BencodeEncoder.encode` from `bencode.ts`. -/
def encode (v : BVal) : JStr := encodeRaw (canon v)

/-!
## The decoder

`BencodeDecoder` of `bencode.ts` walks the string with a cursor `pos`
(started at 0 by the constructor, with `startPos = 0`, so
`getProcessedLength()` returns the final cursor).  The mutual recursion of
`decode`/`decodeList`/`decodeDictionary` is made structural with a fuel
argument; fuel is purely a termination artifact (every recursive call
consumes at least one input unit and at most two fuel, so the
`2 * length + 2` supplied by `decodeWithLength` can never run out; none of
the theorems below depends on that, since they only evaluate the decoder
on concrete or well-formed data where the fuel bound is proved). -/

inductive DecodeError where
  /-- `Invalid bencode data at position ${pos}` -/
  | invalidAt (pos : Nat)
  /-- `Unterminated integer` -/
  | unterminatedInteger
  /-- `Invalid string format` (no colon after the digits) -/
  | invalidStringFormat
  /-- `String length exceeds data` (unreachable, see claim C2) -/
  | stringLengthExceedsData
  /-- `Unterminated list` -/
  | unterminatedList
  /-- `Unterminated dictionary` -/
  | unterminatedDictionary
  /-- `Dictionary key must be a string` -/
  | dictKeyNotString
  /-- fuel artifact, not a source error -/
  | outOfFuel
deriving DecidableEq, Repr

/-- The scanning loop of `decodeString`:
`while (currentBytes < byteLength && end < this.data.length) { ... }`.
The fuel argument only serves termination; `decodeString` passes
`data.length`, which bounds the number of iterations, so the fuel-exhausted
base case (which returns `e`, like a loop exit) is unreachable. -/
def strLoop (data : JStr) (byteLength : Int) : Nat → Nat → Nat → Nat
  | 0, e, _ => e
  | f + 1, e, cb =>
    if (cb : Int) < byteLength ∧ e < data.length then
      strLoop data byteLength f (e + 1) (cb + utf8UnitLen (data.getD e 0))
    else e

/-- `BencodeDecoder.decodeString`: read the decimal length prefix up to the
first colon, then consume characters until their accumulated
`getUTF8ByteLength` reaches the declared byte length or the data ends.
(When `parseInt` yields `NaN` the loop guard `currentBytes < NaN` is false
immediately, so no character is consumed.)  Returns the decoded string and
the new cursor. -/
def decodeString (data : JStr) (pos : Nat) : Except DecodeError (JStr × Nat) :=
  match indexOfFrom data 58 pos with
  | none => .error .invalidStringFormat
  | some colonPos =>
    let start := colonPos + 1
    let e :=
      match parseIntJS (jsSlice data pos colonPos) with
      | .nan => start
      | .int b => strLoop data b data.length start 0
    if e > data.length then .error .stringLengthExceedsData
    else .ok (jsSlice data start e, e)

/-- `BencodeDecoder.decodeInteger`: skip `i`, scan forward for the first
`e` (erroring if the data ends first), and `parseInt` what lies between —
the digits are never validated.  Returns the number and the new cursor. -/
def decodeInteger (data : JStr) (pos : Nat) : Except DecodeError (JsNumber × Nat) :=
  match indexOfFrom data 101 (pos + 1) with
  | none => .error .unterminatedInteger
  | some ePos => .ok (parseIntJS (jsSlice data (pos + 1) ePos), ePos + 1)

/-- JavaScript object property write `result[key] = value` on an
insertion-ordered record: an existing key keeps its position and gets the
new value, a new key is appended.  (The exotic integer-like-key reordering
of JavaScript objects is not modelled; no claim observes the entry order
of a decoded dictionary.) -/
def objInsert (es : List (JStr × BVal)) (k : JStr) (v : BVal) : List (JStr × BVal) :=
  if es.any (fun e => e.1 == k) then
    es.map (fun e => if e.1 == k then (k, v) else e)
  else es ++ [(k, v)]

mutual
/-- `BencodeDecoder.decode` at cursor `pos`: dispatch on the current
character (`i` → integer, `l` → list, `d` → dictionary, digit → string,
anything else — including running off the end — is invalid data). -/
def decodeFrom : Nat → JStr → Nat → Except DecodeError (BVal × Nat)
  | 0, _, _ => .error .outOfFuel
  | fuel + 1, data, pos =>
    match data[pos]? with
    | none => .error (.invalidAt pos)
    | some c =>
      if c = 105 then
        match decodeInteger data pos with
        | .ok (n, p) => .ok (.num n, p)
        | .error e => .error e
      else if c = 108 then decodeItems fuel data (pos + 1) []
      else if c = 100 then decodeEntries fuel data (pos + 1) []
      else if 48 ≤ c ∧ c ≤ 57 then
        match decodeString data pos with
        | .ok (s, p) => .ok (.str s, p)
        | .error e => .error e
      else .error (.invalidAt pos)

/-- The loop of `BencodeDecoder.decodeList`: decode elements (pushed in
arrival order) until the closing `e`; running off the end is
`Unterminated list`. -/
def decodeItems : Nat → JStr → Nat → List BVal → Except DecodeError (BVal × Nat)
  | 0, _, _, _ => .error .outOfFuel
  | fuel + 1, data, pos, acc =>
    if h : pos < data.length then
      if data[pos] = 101 then .ok (.list (ofListL acc), pos + 1)
      else
        match decodeFrom fuel data pos with
        | .ok (v, p) => decodeItems fuel data p (acc ++ [v])
        | .error e => .error e
    else .error .unterminatedList

/-- The loop of `BencodeDecoder.decodeDictionary`: decode a key (which must
be a string), then a value, write `result[key] = value`, until the closing
`e`; running off the end is `Unterminated dictionary`. -/
def decodeEntries : Nat → JStr → Nat → List (JStr × BVal) → Except DecodeError (BVal × Nat)
  | 0, _, _, _ => .error .outOfFuel
  | fuel + 1, data, pos, acc =>
    if h : pos < data.length then
      if data[pos] = 101 then .ok (.dict (ofListE acc), pos + 1)
      else
        match decodeFrom fuel data pos with
        | .ok (.str k, p1) =>
          match decodeFrom fuel data p1 with
          | .ok (v, p2) => decodeEntries fuel data p2 (objInsert acc k v)
          | .error e => .error e
        | .ok _ => .error .dictKeyNotString
        | .error e => .error e
    else .error .unterminatedDictionary
end

/-- One decoder run from offset 0:
`const d = new BencodeDecoder(data); const v = d.decode()` together with
`d.getProcessedLength()` (which is the final cursor, since the constructor
sets `startPos = pos = 0`). -/
def decodeWithLength (data : JStr) : Except DecodeError (BVal × Nat) :=
  decodeFrom (2 * data.length + 2) data 0

/-- `BencodeDecoder.decode(data)` (the static entry point): the decoded
value alone. -/
def bdecode (data : JStr) : Except DecodeError BVal :=
  (decodeWithLength data).map Prod.fst

/-!
## The value the decoder reconstructs from encoder output

`decRaw v` is the value `decodeFrom` returns when fed `encodeRaw v`:
strings, numbers and lists come back as they were; dictionary entries are
replayed through the JavaScript object write `result[key] = value`
(`objInsert`), which merges duplicate keys.  For values whose
dictionaries have unique keys, `decRaw` is the identity
(`decRaw_id` below). -/

mutual
def decRaw : BVal → BVal
  | .str s => .str s
  | .num n => .num n
  | .list xs => .list (ofListL (decRawList xs))
  | .dict es =>
    .dict (ofListE (List.foldl (fun a e => objInsert a e.1 e.2) [] (decRawPairs es)))

def decRawList : BList → List BVal
  | .nil => []
  | .cons v vs => decRaw v :: decRawList vs

def decRawPairs : BEntries → List (JStr × BVal)
  | .nil => []
  | .cons k v es => (k, decRaw v) :: decRawPairs es
end

/-!
## Well-formed values

The round-trip claim quantifies over trees of Text, Integer, List, and Map
with unique Text keys; `wfV` is that well-formedness: numbers are integers
(not `NaN`) and every dictionary's keys are distinct. -/

/-- Is `k` among the keys of `l`?  (This is exactly the membership test
`es.any (e => e[0] == k)` used by `objInsert`.) -/
def keyMemB (k : JStr) (l : List (JStr × BVal)) : Bool := l.any (fun e => e.1 == k)

/-- Are the keys of `l` pairwise distinct? -/
def keysNodupB : List (JStr × BVal) → Bool
  | [] => true
  | e :: es => !keyMemB e.1 es && keysNodupB es

mutual
def wfV : BVal → Bool
  | .str _ => true
  | .num .nan => false
  | .num (.int _) => true
  | .list xs => wfL xs
  | .dict es => keysNodupB (toListE es) && wfE es

def wfL : BList → Bool
  | .nil => true
  | .cons v vs => wfV v && wfL vs

def wfE : BEntries → Bool
  | .nil => true
  | .cons _ v es => wfV v && wfE es
end

/-!
## The nREPL client (`src/nrepl-client.ts`)

The client-side claims concern `NReplClient.eval`'s response processing,
`clone`, the pending-request table (`messageCallbacks`) with its 30-second
timeout, and the socket `close`/`error` handlers.  We model the pending
table and promise settlement explicitly: `ClientState.pending` is the
`messageCallbacks` map together with each outstanding `send`'s accumulated
response array, and `ClientState.settled` records promise outcomes in
settlement order.  Unicode plays no role here, so this layer uses Lean
`String`. -/

structure NReplResponse where
  id : Option String
  value : Option String
  /-- the `new-session` field -/
  newSession : Option String
  status : Option (List String)
  ex : Option String
  /-- the `root-ex` field -/
  rootEx : Option String
  out : Option String
  err : Option String
deriving DecidableEq, Repr

/-- A response with every field absent, for building concrete examples. -/
def emptyResponse : NReplResponse := ⟨none, none, none, none, none, none, none, none⟩

/-- JavaScript truthiness of a string-or-undefined value: `undefined` and
`""` are falsy. -/
def jsTruthyS : Option String → Bool
  | none => false
  | some s => !s.isEmpty

/-- JavaScript `a || b` on string-or-undefined values. -/
def jsOrS (a b : Option String) : Option String := if jsTruthyS a then a else b

/-- `r.ex || r['root-ex'] || r.err`: the first (truthy-)present error
field of one response. -/
def errField (r : NReplResponse) : Option String := jsOrS (jsOrS r.ex r.rootEx) r.err

/-- `r.value || r.out`: the output contribution of one response. -/
def outField (r : NReplResponse) : Option String := jsOrS r.value r.out

/-- `.map(...)` then `.filter(Boolean)`: keep the truthy results, in
order. -/
def collectTruthy (l : List (Option String)) : List String :=
  l.filterMap (fun o => if jsTruthyS o then o else none)

/-- The response processing of `NReplClient.eval` (lines 489–503): collect
the error fields of all responses; if any is present, fail with their
newline join; otherwise return the newline join of the value/out fields. -/
def evalOutcome (rs : List NReplResponse) : Except String String :=
  let errors := collectTruthy (rs.map errField)
  if errors.length > 0 then .error (String.intercalate "\n" errors)
  else .ok (String.intercalate "\n" (collectTruthy (rs.map outField)))

inductive CloneError where
  /-- `responses[0]` of an empty array is `undefined`; reading
  `['new-session']` on it throws a `TypeError` -/
  | emptyResponses
  /-- `Failed to create new session` -/
  | noNewSession
deriving DecidableEq, Repr

/-- `NReplClient.clone`'s handling of the accumulated responses: it reads
`responses[0]['new-session']` — only the first response — and throws if
that is falsy. -/
def cloneOutcome (rs : List NReplResponse) : Except CloneError String :=
  match rs with
  | [] => .error .emptyResponses
  | r :: _ =>
    if jsTruthyS r.newSession then .ok (r.newSession.getD "") else .error .noNewSession

/-- The client's `sessionId` after a clone call: replaced on success,
untouched on failure. -/
def sessionAfterClone (prev : Option String) (rs : List NReplResponse) : Option String :=
  match cloneOutcome rs with
  | .ok s => some s
  | .error _ => prev

structure NReplMessage where
  op : String
  code : Option String
  session : Option String
deriving DecidableEq, Repr

inductive SendError where
  /-- `nREPL request timed out. Message: ...` — carries the original
  request for diagnostics -/
  | requestTimeout (message : NReplMessage)
deriving DecidableEq, Repr

/-- One outstanding `send`: the request and its accumulated responses. -/
structure PendingEntry where
  message : NReplMessage
  responses : List NReplResponse
deriving DecidableEq, Repr

/-- The client state touched by the event handlers: the
`messageCallbacks` table (with each callback's closed-over state), the
promise outcomes so far, and the `connected`/`lastError` flags. -/
structure ClientState where
  pending : List (String × PendingEntry)
  settled : List (String × Except SendError (List NReplResponse))
  connected : Bool
  lastError : Option String
deriving Repr

/-- `messageCallbacks.set(id, ...)` at the start of `send` (lines
431–451): register a fresh pending entry (Map semantics: replace an
existing key in place, else append). -/
def sendStart (s : ClientState) (id : String) (m : NReplMessage) : ClientState :=
  { s with pending :=
      if s.pending.any (fun e => e.1 == id) then
        s.pending.map (fun e => if e.1 == id then (id, ⟨m, []⟩) else e)
      else s.pending ++ [(id, (⟨m, []⟩ : PendingEntry))] }

/-- `response.status?.includes('done')` (an absent status list is falsy). -/
def statusHasDone (r : NReplResponse) : Bool := (r.status.getD []).contains "done"

/-- `messageCallbacks.delete(id)`. -/
def removePending (l : List (String × PendingEntry)) (id : String) :
    List (String × PendingEntry) :=
  l.filter (fun e => !(e.1 == id))

/-- The per-response step of `handleData` (lines 407–415) combined with
the `send` callback (lines 444–451): if the response carries a truthy id
with a registered callback, push the response onto that request's
accumulator; when the response's status includes `done`, clear the timer,
delete the entry and resolve the promise with the accumulated responses.
A response without a registered callback is dropped. -/
def onResponse (s : ClientState) (r : NReplResponse) : ClientState :=
  if jsTruthyS r.id then
    match List.lookup (r.id.getD "") s.pending with
    | none => s
    | some entry =>
      if statusHasDone r then
        { s with pending := removePending s.pending (r.id.getD ""),
                 settled := s.settled ++ [(r.id.getD "", .ok (entry.responses ++ [r]))] }
      else
        { s with pending := s.pending.map (fun e =>
            if e.1 == r.id.getD "" then (r.id.getD "", ⟨entry.message, entry.responses ++ [r]⟩)
            else e) }
  else s

/-- The 30-second timer body of `send` (lines 437–442): delete the entry
and reject the promise with `RequestTimeout` carrying the original
request.  (The timer only exists while the request is pending — it is
cleared on resolution — so a missing entry means nothing happens.) -/
def onTimeout (s : ClientState) (id : String) : ClientState :=
  match List.lookup id s.pending with
  | none => s
  | some entry =>
    { s with pending := removePending s.pending id,
             settled := s.settled ++ [(id, .error (.requestTimeout entry.message))],
             lastError := some "nREPL request timed out" }

/-- The socket `error` handler (lines 351–355): record the error and mark
disconnected.  It does not touch `messageCallbacks` or any promise. -/
def onSocketError (s : ClientState) (msg : String) : ClientState :=
  { s with connected := false, lastError := some msg }

/-- The socket `close` handler (lines 356–362): mark disconnected and
default `lastError`.  It does not touch `messageCallbacks` or any
promise. -/
def onSocketClose (s : ClientState) : ClientState :=
  { s with connected := false,
           lastError := match s.lastError with
             | none => some "Connection closed"
             | some e => some e }

def c1Sample : BVal :=
  bdict [(su "op", .str (su "clone")),
         (su "id", blist [.num (.int 1), .str (su "héllo")])]

/-- The UTF-16 code units of U+1F600 (a 4-byte UTF-8 character). -/
def c3Emoji : JStr := [55357, 56832]

def c9FirstMap : BEntries := ofListE [(su "id", BVal.str (su "a1"))]

def c9SecondMap : BEntries := ofListE [(su "op", BVal.str (su "clone"))]

/-- The two concrete responses of the claim's success example. -/
def respVal42 : NReplResponse := { emptyResponse with id := some "x", value := some "42" }

def respDoneX : NReplResponse := { emptyResponse with id := some "x", status := some ["done"] }

/-- The concrete error response of the claim's failure example. -/
def respBoom : NReplResponse :=
  { emptyResponse with id := some "x", ex := some "boom", status := some ["done"] }

/-- A concrete state with one in-flight request, for evaluating the
socket-event handlers. -/
def c6State : ClientState :=
  { pending := [("a", { message := { op := "eval", code := some "(+ 1 2)",
                                     session := some "sess" },
                        responses := [] })],
    settled := [], connected := true, lastError := none }

/-- The two accumulated responses of the C7 counterexample: an output
response first, then the response that carries the new session. -/
def c7Responses : List NReplResponse :=
  [{ emptyResponse with id := some "y", out := some "warming up" },
   { emptyResponse with
      id := some "y"
      newSession := some "sess-1"
      status := some ["done"] }]

def c7GoodResponse : NReplResponse :=
  { emptyResponse with
      id := some "y"
      newSession := some "sess-1"
      status := some ["done"] }

def c8Entry : PendingEntry :=
  { message := { op := "eval", code := some "(inc 1)", session := some "sess" },
    responses := [] }

def c8State : ClientState :=
  { pending := [("a", c8Entry)], settled := [], connected := true, lastError := none }

theorem toListL_ofListL (l : List BVal) : toListL (ofListL l) = l := by
  induction l with
  | nil => rfl
  | cons v vs ih => simp [ofListL, toListL, ih]

theorem ofListL_toListL : ∀ l : BList, ofListL (toListL l) = l
  | .nil => rfl
  | .cons v vs => by simp [ofListL, toListL, ofListL_toListL vs]

theorem toListE_ofListE (l : List (JStr × BVal)) : toListE (ofListE l) = l := by
  induction l with
  | nil => rfl
  | cons e es ih => simp [ofListE, toListE, ih]

theorem ofListE_toListE : ∀ l : BEntries, ofListE (toListE l) = l
  | .nil => rfl
  | .cons k v es => by simp [ofListE, toListE, ofListE_toListE es]

/-!
## Arithmetic of the decimal rendering and parsing helpers
-/

theorem natDecAux_zero (f : Nat) : natDecAux f 0 = [] := by cases f <;> rfl

theorem natDecAux_lt (f : Nat) : ∀ n d, d ∈ natDecAux f n → d < 10 := by
  induction f with
  | zero => intro n d h; simp [natDecAux] at h
  | succ f ih =>
    intro n d h
    cases n with
    | zero => simp [natDecAux] at h
    | succ m =>
      simp only [natDecAux, List.mem_append, List.mem_singleton] at h
      rcases h with h | h
      · exact ih _ _ h
      · omega

theorem natDecAux_val (f : Nat) :
    ∀ n, 0 < n → n ≤ f → (natDecAux f n).foldl (fun a d => 10 * a + d) 0 = n := by
  induction f with
  | zero => intro n h1 h2; omega
  | succ f ih =>
    intro n h1 h2
    cases n with
    | zero => omega
    | succ m =>
      show ((natDecAux f ((m + 1) / 10) ++ [(m + 1) % 10]).foldl (fun a d => 10 * a + d) 0) = m + 1
      rw [List.foldl_append]
      simp only [List.foldl_cons, List.foldl_nil]
      by_cases hq : (m + 1) / 10 = 0
      · rw [hq, natDecAux_zero]
        simp only [List.foldl_nil]
        omega
      · rw [ih ((m + 1) / 10) (by omega) (by
          have := Nat.div_lt_self (Nat.succ_pos m) (by omega : 1 < 10)
          omega)]
        have := Nat.div_add_mod (m + 1) 10
        omega

theorem natToUnits_units (n : Nat) : ∀ u ∈ natToUnits n, 48 ≤ u ∧ u ≤ 57 := by
  intro u hu
  unfold natToUnits at hu
  by_cases h : n = 0
  · simp [h] at hu; omega
  · simp only [h, if_false, List.mem_map] at hu
    obtain ⟨d, hd, rfl⟩ := hu
    have := natDecAux_lt n n d hd
    omega

theorem natToUnits_ne_nil (n : Nat) : natToUnits n ≠ [] := by
  unfold natToUnits
  cases n with
  | zero => simp
  | succ m => simp [natDecAux]

theorem digitsToNat_map_add48 (l : List Nat) :
    digitsToNat (l.map (· + 48)) = l.foldl (fun a d => 10 * a + d) 0 := by
  unfold digitsToNat
  rw [List.foldl_map]
  have hf : (fun (x y : Nat) => 10 * x + (y + 48 - 48)) = fun a d => 10 * a + d := by
    funext a d; omega
  rw [hf]

theorem digitsToNat_natToUnits (n : Nat) : digitsToNat (natToUnits n) = n := by
  unfold natToUnits
  by_cases h : n = 0
  · simp [h, digitsToNat]
  · simp only [h, if_false]
    rw [digitsToNat_map_add48, natDecAux_val n n (by omega) le_rfl]

theorem digit_not_ws {u : Nat} (h1 : 48 ≤ u) (h2 : u ≤ 57) : isJsWhitespaceU u = false := by
  unfold isJsWhitespaceU
  simp only [Bool.or_eq_false_iff, decide_eq_false_iff_not]
  omega

theorem parseDigitsJS_all_digits (l : JStr) (hne : l ≠ [])
    (hd : ∀ u ∈ l, 48 ≤ u ∧ u ≤ 57) : parseDigitsJS l = .int (digitsToNat l) := by
  unfold parseDigitsJS
  rw [List.takeWhile_eq_self_iff.mpr (fun u hu => by
    have := hd u hu; unfold isDigitU; simp; omega)]
  cases l with
  | nil => exact absurd rfl hne
  | cons u t => rfl

theorem parseIntJS_all_digits (l : JStr) (hne : l ≠ [])
    (hd : ∀ u ∈ l, 48 ≤ u ∧ u ≤ 57) : parseIntJS l = .int (digitsToNat l) := by
  unfold parseIntJS
  cases l with
  | nil => exact absurd rfl hne
  | cons u t =>
    have hu := hd u (by simp)
    rw [List.dropWhile_cons_of_neg (by simp [digit_not_ws hu.1 hu.2])]
    simp only [parseIntTrimmed]
    rw [if_neg (by omega), if_neg (by omega)]
    exact parseDigitsJS_all_digits (u :: t) hne hd

theorem parseIntJS_natToUnits (n : Nat) : parseIntJS (natToUnits n) = .int n := by
  rw [parseIntJS_all_digits _ (natToUnits_ne_nil n) (natToUnits_units n),
    digitsToNat_natToUnits]

theorem parseIntJS_numToUnits (m : JsNumber) : parseIntJS (numToUnits m) = m := by
  cases m with
  | nan => rfl
  | int i =>
    unfold numToUnits
    by_cases h : i < 0
    · simp only [h, if_true]
      unfold parseIntJS
      rw [List.dropWhile_cons_of_neg (by simp [isJsWhitespaceU])]
      simp only [parseIntTrimmed, if_true, if_false, reduceIte]
      rw [parseDigitsJS_all_digits _ (natToUnits_ne_nil _) (natToUnits_units _),
        digitsToNat_natToUnits]
      unfold jsNeg
      rw [Int.ofNat_natAbs_of_nonpos (by omega : i ≤ 0)]
      simp
    · simp only [h, if_false]
      rw [parseIntJS_natToUnits]
      congr 1
      omega

theorem numToUnits_units (m : JsNumber) : ∀ u ∈ numToUnits m, u ≠ 101 ∧ u ≠ 58 := by
  intro u hu
  cases m with
  | nan => simp [numToUnits] at hu; omega
  | int i =>
    unfold numToUnits at hu
    by_cases h : i < 0
    · simp only [h, if_true, List.mem_cons] at hu
      rcases hu with rfl | hu
      · omega
      · have := natToUnits_units _ u hu; omega
    · simp only [h, if_false] at hu
      have := natToUnits_units _ u hu; omega

/-!
## Positional lemmas about lists
-/

theorem firstIdxOf_append_mem (c : Nat) (l r : JStr) (h : c ∉ l) :
    firstIdxOf c (l ++ c :: r) = some l.length := by
  induction l with
  | nil => simp [firstIdxOf]
  | cons u t ih =>
    simp only [List.mem_cons, not_or] at h
    show firstIdxOf c (u :: (t ++ c :: r)) = some (u :: t).length
    simp only [firstIdxOf, if_neg (Ne.symm h.1), ih h.2]
    simp

theorem firstIdxOf_not_mem (c : Nat) (l : JStr) (h : c ∉ l) : firstIdxOf c l = none := by
  induction l with
  | nil => rfl
  | cons u t ih =>
    simp only [List.mem_cons, not_or] at h
    simp [firstIdxOf, if_neg (Ne.symm h.1), ih h.2]

theorem indexOfFrom_mid (pre m t : JStr) (c : Nat) (h : c ∉ m) :
    indexOfFrom (pre ++ m ++ c :: t) c pre.length = some (pre.length + m.length) := by
  unfold indexOfFrom
  rw [List.append_assoc, List.drop_left, firstIdxOf_append_mem c m t h]
  rfl

theorem indexOfFrom_not_mem (pre t : JStr) (c : Nat) (h : c ∉ t) :
    indexOfFrom (pre ++ t) c pre.length = none := by
  unfold indexOfFrom
  rw [List.drop_left, firstIdxOf_not_mem c t h]
  rfl

theorem jsSlice_mid (pre m rest : JStr) :
    jsSlice (pre ++ m ++ rest) pre.length (pre.length + m.length) = m := by
  unfold jsSlice
  rw [List.append_assoc, List.take_append_eq_append_take,
    List.take_of_length_le (by omega), Nat.add_sub_cancel_left, List.take_left,
    List.drop_left]

theorem getAt_mid (pre : JStr) (c : Nat) (t : JStr) :
    (pre ++ c :: t)[pre.length]? = some c := by
  rw [List.getElem?_append_right (le_refl pre.length)]
  simp

theorem getD_mid (pre : JStr) (c : Nat) (t : JStr) :
    (pre ++ c :: t).getD pre.length 0 = c := by
  rw [List.getD_eq_getElem?_getD, getAt_mid]
  rfl

/-!
## What the decoder does on encoder output
-/

theorem utf8UnitLen_pos (u : Nat) : 1 ≤ utf8UnitLen u := by
  unfold utf8UnitLen
  split_ifs <;> omega

theorem getUTF8ByteLength_cons (u : Nat) (t : JStr) :
    getUTF8ByteLength (u :: t) = utf8UnitLen u + getUTF8ByteLength t := by
  simp [getUTF8ByteLength]

/-- The `decodeString` scanning loop consumes exactly the characters of `s`
when the target byte count is exactly the byte count of `s` (the partial
byte sums are strictly increasing, so the loop stops precisely at the end
of `s`, even if more data follows). -/
theorem strLoop_exact : ∀ (s pre rest : JStr) (f : Nat) (cb : Nat) (B : Int),
    (cb : Int) + (getUTF8ByteLength s : Int) = B → s.length ≤ f →
    strLoop (pre ++ s ++ rest) B f pre.length cb = pre.length + s.length := by
  intro s
  induction s with
  | nil =>
    intro pre rest f cb B hB _
    simp only [getUTF8ByteLength, List.map_nil, List.sum_nil, Nat.cast_zero, add_zero] at hB
    cases f with
    | zero => simp [strLoop]
    | succ g =>
      simp only [strLoop]
      rw [if_neg]
      · simp
      · rintro ⟨hlt, -⟩
        omega
  | cons u t ih =>
    intro pre rest f cb B hB hf
    cases f with
    | zero => simp at hf
    | succ g =>
      have hlen : pre.length < (pre ++ (u :: t) ++ rest).length := by
        simp [List.length_append]
      have hget : (pre ++ (u :: t) ++ rest).getD pre.length 0 = u := by
        rw [List.append_assoc, List.cons_append]
        exact getD_mid pre u (t ++ rest)
      have hcond : (cb : Int) < B := by
        rw [getUTF8ByteLength_cons] at hB
        have h1 := utf8UnitLen_pos u
        have h2 : (0 : Int) ≤ (getUTF8ByteLength t : Int) := by positivity
        omega
      have hre : pre ++ (u :: t) ++ rest = (pre ++ [u]) ++ t ++ rest := by
        simp
      have hlen1 : pre.length + 1 = (pre ++ [u]).length := by simp
      simp only [strLoop]
      rw [if_pos ⟨hcond, hlen⟩, hget, hre, hlen1,
        ih (pre ++ [u]) rest g (cb + utf8UnitLen u) B
          (by rw [getUTF8ByteLength_cons] at hB; push_cast at hB ⊢; omega)
          (by simpa using hf)]
      simp
      omega

theorem encStr_length (s : JStr) :
    (encStr s).length = (natToUnits (getUTF8ByteLength s)).length + 1 + s.length := by
  simp [encStr]
  omega

/-- Decoding an encoded string at its start returns exactly the string and
advances the cursor past it, whatever data follows. -/
theorem decodeString_enc (s pre rest : JStr) :
    decodeString (pre ++ encStr s ++ rest) pre.length
      = .ok (s, pre.length + (encStr s).length) := by
  have hcolon : (58 : Nat) ∉ natToUnits (getUTF8ByteLength s) := by
    intro hmem
    have := natToUnits_units _ _ hmem
    omega
  have hsplit : pre ++ encStr s ++ rest
      = pre ++ natToUnits (getUTF8ByteLength s) ++ 58 :: (s ++ rest) := by
    simp [encStr]
  unfold decodeString
  rw [hsplit]
  simp only [indexOfFrom_mid pre _ _ 58 hcolon, jsSlice_mid pre _ _, parseIntJS_natToUnits]
  have hsplit2 : pre ++ natToUnits (getUTF8ByteLength s) ++ 58 :: (s ++ rest)
      = (pre ++ natToUnits (getUTF8ByteLength s) ++ [58]) ++ s ++ rest := by
    simp
  have hlen2 : pre.length + (natToUnits (getUTF8ByteLength s)).length + 1
      = (pre ++ natToUnits (getUTF8ByteLength s) ++ [58]).length := by
    simp [List.length_append]
    omega
  rw [hsplit2, hlen2,
    strLoop_exact s (pre ++ natToUnits (getUTF8ByteLength s) ++ [58]) rest _ 0 _
      (by push_cast; omega)
      (by simp [List.length_append]; omega)]
  rw [if_neg (by simp [List.length_append]; omega)]
  rw [jsSlice_mid (pre ++ natToUnits (getUTF8ByteLength s) ++ [58]) s rest]
  have harith : (pre ++ natToUnits (getUTF8ByteLength s) ++ [58]).length + s.length
      = pre.length + (encStr s).length := by
    rw [encStr_length]
    simp [List.length_append]
    omega
  rw [harith]

/-- Decoding an encoded integer at its start returns exactly the rendered
number and advances the cursor past the closing `e`, whatever follows. -/
theorem decodeInteger_enc (m : JsNumber) (pre rest : JStr) :
    decodeInteger (pre ++ (105 :: (numToUnits m ++ [101])) ++ rest) pre.length
      = .ok (m, pre.length + ((numToUnits m).length + 2)) := by
  have hsplit : pre ++ (105 :: (numToUnits m ++ [101])) ++ rest
      = (pre ++ [105]) ++ numToUnits m ++ 101 :: rest := by
    simp
  have hne : (101 : Nat) ∉ numToUnits m := by
    intro hmem
    exact (numToUnits_units m _ hmem).1 rfl
  have hlen1 : pre.length + 1 = (pre ++ [105]).length := by simp
  unfold decodeInteger
  rw [hsplit, hlen1]
  simp only [indexOfFrom_mid (pre ++ [105]) (numToUnits m) rest 101 hne,
    jsSlice_mid (pre ++ [105]) (numToUnits m) (101 :: rest), parseIntJS_numToUnits]
  have harith : (pre ++ [105] : JStr).length + (numToUnits m).length + 1
      = pre.length + ((numToUnits m).length + 2) := by
    simp
    omega
  rw [harith]

theorem getElem_mid (pre : JStr) (c : Nat) (t : JStr)
    (h : pre.length < (pre ++ c :: t).length) : (pre ++ c :: t)[pre.length] = c := by
  have h1 := getAt_mid pre c t
  rw [List.getElem?_eq_getElem h] at h1
  exact Option.some.inj h1

/-- Every encoded string starts with an ASCII digit (of its length prefix). -/
theorem encStr_shape (s : JStr) : ∃ d t, encStr s = d :: t ∧ 48 ≤ d ∧ d ≤ 57 := by
  obtain ⟨d, ds, hnat⟩ := List.exists_cons_of_ne_nil (natToUnits_ne_nil (getUTF8ByteLength s))
  have hd := natToUnits_units (getUTF8ByteLength s) d (by rw [hnat]; simp)
  exact ⟨d, ds ++ 58 :: s, by simp [encStr, hnat], hd.1, hd.2⟩

/-- Every encoding is nonempty, and its first unit is the dispatch unit:
`i`, `l`, `d` or a digit — in particular it is never `e`. -/
theorem encodeRaw_shape (v : BVal) :
    ∃ c t, encodeRaw v = c :: t ∧ c ≠ 101 := by
  cases v with
  | str s =>
    obtain ⟨d, t, hs, h1, h2⟩ := encStr_shape s
    exact ⟨d, t, by simp [encodeRaw, hs], by omega⟩
  | num n => exact ⟨105, _, rfl, by omega⟩
  | list xs => exact ⟨108, _, rfl, by omega⟩
  | dict es => exact ⟨100, _, rfl, by omega⟩

theorem encodeRaw_length_pos (v : BVal) : 1 ≤ (encodeRaw v).length := by
  obtain ⟨c, t, h, -⟩ := encodeRaw_shape v
  simp [h]

theorem getElem_eq_of_some {l : JStr} {n c : Nat} (h : n < l.length)
    (hq : l[n]? = some c) : l[n] = c := by
  rw [List.getElem?_eq_getElem h] at hq
  exact Option.some.inj hq

mutual
/-- Decoding at the start of an encoded value consumes exactly the encoding
and returns `decRaw` of the value, whatever surrounds it, for any
sufficient fuel. -/
theorem decodeFrom_encodeRaw : ∀ (v : BVal) (pre rest : JStr) (fuel : Nat),
    (encodeRaw v).length + 1 ≤ fuel →
    decodeFrom fuel (pre ++ encodeRaw v ++ rest) pre.length
      = .ok (decRaw v, pre.length + (encodeRaw v).length)
  | .str s, pre, rest, fuel, hfuel => by
    cases fuel with
    | zero => omega
    | succ f =>
      simp only [encodeRaw] at hfuel ⊢
      obtain ⟨d, t, hs, hd1, hd2⟩ := encStr_shape s
      have hat : (pre ++ encStr s ++ rest)[pre.length]? = some d := by
        rw [show pre ++ encStr s ++ rest = pre ++ d :: (t ++ rest) by simp [hs]]
        exact getAt_mid pre d (t ++ rest)
      simp only [decodeFrom, hat]
      rw [if_neg (by omega), if_neg (by omega), if_neg (by omega), if_pos ⟨hd1, hd2⟩,
        decodeString_enc s pre rest]
      rfl
  | .num m, pre, rest, fuel, hfuel => by
    cases fuel with
    | zero => omega
    | succ f =>
      simp only [encodeRaw] at hfuel ⊢
      have hat : (pre ++ (105 :: (numToUnits m ++ [101])) ++ rest)[pre.length]? = some 105 := by
        rw [show pre ++ (105 :: (numToUnits m ++ [101])) ++ rest
          = pre ++ 105 :: (numToUnits m ++ [101] ++ rest) by simp]
        exact getAt_mid pre 105 _
      simp only [decodeFrom, hat]
      rw [if_pos trivial, decodeInteger_enc m pre rest]
      simp [decRaw]
  | .list xs, pre, rest, fuel, hfuel => by
    cases fuel with
    | zero => omega
    | succ f =>
      simp only [encodeRaw] at hfuel ⊢
      have hat : (pre ++ (108 :: (encodeRawList xs ++ [101])) ++ rest)[pre.length]? = some 108 := by
        rw [show pre ++ (108 :: (encodeRawList xs ++ [101])) ++ rest
          = pre ++ 108 :: (encodeRawList xs ++ [101] ++ rest) by simp]
        exact getAt_mid pre 108 _
      simp only [decodeFrom, hat]
      rw [if_pos trivial]
      have hre : pre ++ (108 :: (encodeRawList xs ++ [101])) ++ rest
          = (pre ++ [108]) ++ encodeRawList xs ++ 101 :: rest := by simp
      have hlen : pre.length + 1 = (pre ++ [108]).length := by simp
      rw [hre, hlen, decodeItems_encodeRawList xs (pre ++ [108]) rest f []
        (by simp [List.length_append] at hfuel; omega)]
      simp [decRaw, List.length_append]
      omega
  | .dict es, pre, rest, fuel, hfuel => by
    cases fuel with
    | zero => omega
    | succ f =>
      simp only [encodeRaw] at hfuel ⊢
      have hat : (pre ++ (100 :: (encodeRawEntries es ++ [101])) ++ rest)[pre.length]? = some 100 := by
        rw [show pre ++ (100 :: (encodeRawEntries es ++ [101])) ++ rest
          = pre ++ 100 :: (encodeRawEntries es ++ [101] ++ rest) by simp]
        exact getAt_mid pre 100 _
      simp only [decodeFrom, hat]
      rw [if_pos trivial]
      have hre : pre ++ (100 :: (encodeRawEntries es ++ [101])) ++ rest
          = (pre ++ [100]) ++ encodeRawEntries es ++ 101 :: rest := by simp
      have hlen : pre.length + 1 = (pre ++ [100]).length := by simp
      rw [hre, hlen, decodeEntries_encodeRawEntries es (pre ++ [100]) rest f []
        (by simp [List.length_append] at hfuel; omega)]
      simp [decRaw, List.length_append]
      omega

/-- Decoding the element section of an encoded list consumes it whole,
accumulating `decRaw` of the elements in order, then consumes the closing
`e`. -/
theorem decodeItems_encodeRawList : ∀ (xs : BList) (pre rest : JStr) (fuel : Nat)
    (acc : List BVal), (encodeRawList xs).length + 2 ≤ fuel →
    decodeItems fuel (pre ++ encodeRawList xs ++ 101 :: rest) pre.length acc
      = .ok (.list (ofListL (acc ++ decRawList xs)),
             pre.length + (encodeRawList xs).length + 1)
  | .nil, pre, rest, fuel, acc, hfuel => by
    cases fuel with
    | zero => omega
    | succ f =>
      simp only [encodeRawList, List.append_nil] at hfuel ⊢
      have hlt : pre.length < (pre ++ 101 :: rest).length := by
        simp [List.length_append]
      simp only [decodeItems]
      rw [dif_pos hlt, if_pos (getElem_eq_of_some hlt (getAt_mid pre 101 rest))]
      simp [decRawList]
  | .cons v vs, pre, rest, fuel, acc, hfuel => by
    cases fuel with
    | zero => omega
    | succ f =>
      simp only [encodeRawList] at hfuel ⊢
      obtain ⟨c, t, hv, hc⟩ := encodeRaw_shape v
      have h1 := encodeRaw_length_pos v
      have hlt : pre.length < (pre ++ (encodeRaw v ++ encodeRawList vs) ++ 101 :: rest).length := by
        simp [List.length_append]
      have hat : (pre ++ (encodeRaw v ++ encodeRawList vs) ++ 101 :: rest)[pre.length]? = some c := by
        rw [show pre ++ (encodeRaw v ++ encodeRawList vs) ++ 101 :: rest
          = pre ++ c :: (t ++ encodeRawList vs ++ 101 :: rest) by simp [hv]]
        exact getAt_mid pre c _
      have hstep : decodeFrom f (pre ++ (encodeRaw v ++ encodeRawList vs) ++ 101 :: rest)
          pre.length = .ok (decRaw v, pre.length + (encodeRaw v).length) := by
        rw [show pre ++ (encodeRaw v ++ encodeRawList vs) ++ 101 :: rest
          = pre ++ encodeRaw v ++ (encodeRawList vs ++ 101 :: rest) by simp]
        exact decodeFrom_encodeRaw v pre (encodeRawList vs ++ 101 :: rest) f
          (by simp [List.length_append] at hfuel; omega)
      simp only [decodeItems]
      rw [dif_pos hlt, if_neg (by rw [getElem_eq_of_some hlt hat]; exact hc)]
      simp only [hstep]
      have hrest : decodeItems f (pre ++ (encodeRaw v ++ encodeRawList vs) ++ 101 :: rest)
          (pre.length + (encodeRaw v).length) (acc ++ [decRaw v])
          = .ok (.list (ofListL ((acc ++ [decRaw v]) ++ decRawList vs)),
                 (pre ++ encodeRaw v).length + (encodeRawList vs).length + 1) := by
        rw [show pre ++ (encodeRaw v ++ encodeRawList vs) ++ 101 :: rest
          = (pre ++ encodeRaw v) ++ encodeRawList vs ++ 101 :: rest by simp]
        rw [show pre.length + (encodeRaw v).length = (pre ++ encodeRaw v).length from
          (List.length_append pre (encodeRaw v)).symm]
        exact decodeItems_encodeRawList vs (pre ++ encodeRaw v) rest f (acc ++ [decRaw v])
          (by simp [List.length_append] at hfuel; omega)
      rw [hrest]
      simp [decRawList, List.length_append]
      omega

/-- Decoding the entry section of an encoded dictionary consumes it whole,
replaying the `result[key] = value` writes in order, then consumes the
closing `e`. -/
theorem decodeEntries_encodeRawEntries : ∀ (es : BEntries) (pre rest : JStr) (fuel : Nat)
    (acc : List (JStr × BVal)), (encodeRawEntries es).length + 2 ≤ fuel →
    decodeEntries fuel (pre ++ encodeRawEntries es ++ 101 :: rest) pre.length acc
      = .ok (.dict (ofListE (List.foldl (fun a e => objInsert a e.1 e.2) acc (decRawPairs es))),
             pre.length + (encodeRawEntries es).length + 1)
  | .nil, pre, rest, fuel, acc, hfuel => by
    cases fuel with
    | zero => omega
    | succ f =>
      simp only [encodeRawEntries, List.append_nil] at hfuel ⊢
      have hlt : pre.length < (pre ++ 101 :: rest).length := by
        simp [List.length_append]
      simp only [decodeEntries]
      rw [dif_pos hlt, if_pos (getElem_eq_of_some hlt (getAt_mid pre 101 rest))]
      simp [decRawPairs]
  | .cons k v es, pre, rest, fuel, acc, hfuel => by
    cases fuel with
    | zero => omega
    | succ f =>
      simp only [encodeRawEntries] at hfuel ⊢
      obtain ⟨d, t, hks, hd1, hd2⟩ := encStr_shape k
      have h1 := encodeRaw_length_pos v
      have h2 : 1 ≤ (encStr k).length := by simp [hks]
      have hlt : pre.length
          < (pre ++ (encStr k ++ encodeRaw v ++ encodeRawEntries es) ++ 101 :: rest).length := by
        simp [List.length_append]
      have hat : (pre ++ (encStr k ++ encodeRaw v ++ encodeRawEntries es)
          ++ 101 :: rest)[pre.length]? = some d := by
        rw [show pre ++ (encStr k ++ encodeRaw v ++ encodeRawEntries es) ++ 101 :: rest
          = pre ++ d :: (t ++ encodeRaw v ++ encodeRawEntries es ++ 101 :: rest) by simp [hks]]
        exact getAt_mid pre d _
      simp only [decodeEntries]
      rw [dif_pos hlt, if_neg (by rw [getElem_eq_of_some hlt hat]; omega)]
      cases f with
      | zero => simp [List.length_append] at hfuel
      | succ f2 =>
        have hkey : decodeFrom (f2 + 1)
            (pre ++ (encStr k ++ encodeRaw v ++ encodeRawEntries es) ++ 101 :: rest)
            pre.length = .ok (.str k, pre.length + (encStr k).length) := by
          simp only [decodeFrom, hat]
          rw [if_neg (by omega), if_neg (by omega), if_neg (by omega), if_pos ⟨hd1, hd2⟩]
          rw [show pre ++ (encStr k ++ encodeRaw v ++ encodeRawEntries es) ++ 101 :: rest
            = pre ++ encStr k ++ (encodeRaw v ++ (encodeRawEntries es ++ 101 :: rest)) by simp]
          rw [decodeString_enc k pre (encodeRaw v ++ (encodeRawEntries es ++ 101 :: rest))]
        have hval : decodeFrom (f2 + 1)
            (pre ++ (encStr k ++ encodeRaw v ++ encodeRawEntries es) ++ 101 :: rest)
            (pre.length + (encStr k).length)
            = .ok (decRaw v, (pre ++ encStr k).length + (encodeRaw v).length) := by
          rw [show pre ++ (encStr k ++ encodeRaw v ++ encodeRawEntries es) ++ 101 :: rest
            = (pre ++ encStr k) ++ encodeRaw v ++ (encodeRawEntries es ++ 101 :: rest) by simp]
          rw [show pre.length + (encStr k).length = (pre ++ encStr k).length from
            (List.length_append pre (encStr k)).symm]
          exact decodeFrom_encodeRaw v (pre ++ encStr k) (encodeRawEntries es ++ 101 :: rest)
            (f2 + 1) (by simp [List.length_append] at hfuel; omega)
        have hrest : decodeEntries (f2 + 1)
            (pre ++ (encStr k ++ encodeRaw v ++ encodeRawEntries es) ++ 101 :: rest)
            ((pre ++ encStr k).length + (encodeRaw v).length)
            (objInsert acc k (decRaw v))
            = .ok (.dict (ofListE (List.foldl (fun a e => objInsert a e.1 e.2)
                     (objInsert acc k (decRaw v)) (decRawPairs es))),
                   (pre ++ encStr k ++ encodeRaw v).length + (encodeRawEntries es).length + 1) := by
          rw [show pre ++ (encStr k ++ encodeRaw v ++ encodeRawEntries es) ++ 101 :: rest
            = (pre ++ encStr k ++ encodeRaw v) ++ encodeRawEntries es ++ 101 :: rest by simp]
          rw [show (pre ++ encStr k).length + (encodeRaw v).length
            = (pre ++ encStr k ++ encodeRaw v).length from
            (List.length_append (pre ++ encStr k) (encodeRaw v)).symm]
          exact decodeEntries_encodeRawEntries es (pre ++ encStr k ++ encodeRaw v) rest (f2 + 1)
            (objInsert acc k (decRaw v)) (by simp [List.length_append] at hfuel; omega)
        simp only [hkey, hval, hrest]
        simp [decRawPairs, List.length_append]
        omega
end

/-- Top-level form of the round trip: a decoder run on a buffer that starts
with an encoding consumes exactly the encoding. -/
theorem decodeWithLength_encodeRaw (w : BVal) (rest : JStr) :
    decodeWithLength (encodeRaw w ++ rest) = .ok (decRaw w, (encodeRaw w).length) := by
  unfold decodeWithLength
  have h := decodeFrom_encodeRaw w [] rest (2 * (encodeRaw w ++ rest).length + 2)
    (by simp [List.length_append]; omega)
  simpa using h

theorem keyMemB_eq_false_iff (k : JStr) (l : List (JStr × BVal)) :
    keyMemB k l = false ↔ ∀ e ∈ l, e.1 ≠ k := by
  simp [keyMemB]

theorem keyMemB_append (k : JStr) (l₁ l₂ : List (JStr × BVal)) :
    keyMemB k (l₁ ++ l₂) = (keyMemB k l₁ || keyMemB k l₂) := by
  simp [keyMemB, List.any_append]

/-- Replaying JavaScript object writes over entries with pairwise distinct
keys, none already present, just appends them all. -/
theorem foldl_objInsert_fresh : ∀ (l : List (JStr × BVal)) (acc : List (JStr × BVal)),
    (∀ e ∈ l, keyMemB e.1 acc = false) → keysNodupB l = true →
    List.foldl (fun a e => objInsert a e.1 e.2) acc l = acc ++ l := by
  intro l
  induction l with
  | nil => intro acc _ _; simp
  | cons e l2 ih =>
    intro acc hfresh hnodup
    have hke : keyMemB e.1 acc = false := hfresh e (by simp)
    simp only [keysNodupB, Bool.and_eq_true, Bool.not_eq_true'] at hnodup
    have hobj : objInsert acc e.1 e.2 = acc ++ [e] := by
      unfold objInsert
      rw [show (acc.any fun x => x.1 == e.1) = keyMemB e.1 acc from rfl, hke]
      simp
    simp only [List.foldl_cons, hobj]
    rw [ih (acc ++ [e]) (fun f hf => by
      rw [keyMemB_append]
      have h1 : keyMemB f.1 acc = false := hfresh f (by simp [hf])
      have h2 : keyMemB f.1 [e] = false := by
        simp [keyMemB]
        have := (keyMemB_eq_false_iff e.1 l2).mp hnodup.1 f hf
        intro hcontra
        exact this (by rw [hcontra])
      simp [h1, h2]) hnodup.2]
    simp

mutual
/-- On values whose dictionaries all have unique keys, the decoder's
reconstruction is the identity. -/
theorem decRaw_id : ∀ v : BVal, wfV v = true → decRaw v = v
  | .str s, _ => rfl
  | .num .nan, h => by simp [wfV] at h
  | .num (.int i), _ => rfl
  | .list xs, h => by
    simp only [decRaw]
    rw [decRawList_id xs (by simpa [wfV] using h), ofListL_toListL]
  | .dict es, h => by
    simp only [wfV, Bool.and_eq_true] at h
    simp only [decRaw]
    rw [decRawPairs_id es h.2,
      foldl_objInsert_fresh (toListE es) [] (by intro e _; simp [keyMemB]) h.1]
    simp [ofListE_toListE]

theorem decRawList_id : ∀ xs : BList, wfL xs = true → decRawList xs = toListL xs
  | .nil, _ => rfl
  | .cons v vs, h => by
    simp only [wfL, Bool.and_eq_true] at h
    simp only [decRawList, toListL]
    rw [decRaw_id v h.1, decRawList_id vs h.2]

theorem decRawPairs_id : ∀ es : BEntries, wfE es = true → decRawPairs es = toListE es
  | .nil, _ => rfl
  | .cons k v es, h => by
    simp only [wfE, Bool.and_eq_true] at h
    simp only [decRawPairs, toListE]
    rw [decRaw_id v h.1, decRawPairs_id es h.2]
end

/-!
## Properties of the key ordering and of the entry sort
-/

theorem natCompare_swap (a b : Nat) : compare a b = (compare b a).swap := by
  rcases Nat.lt_trichotomy a b with h | h | h
  · rw [Nat.compare_eq_lt.mpr h, Nat.compare_eq_gt.mpr h]
    rfl
  · subst h
    rw [Nat.compare_eq_eq.mpr rfl]
    rfl
  · rw [Nat.compare_eq_gt.mpr h, Nat.compare_eq_lt.mpr h]
    rfl

theorem nlc_swap : ∀ x y : List Nat, natListCompare x y = (natListCompare y x).swap
  | [], [] => rfl
  | [], _ :: _ => rfl
  | _ :: _, [] => rfl
  | a :: as, b :: bs => by
    simp only [natListCompare]
    rw [natCompare_swap a b]
    cases compare b a with
    | lt => rfl
    | eq => simpa [Ordering.swap] using nlc_swap as bs
    | gt => rfl

theorem nlc_eq_iff : ∀ x y : List Nat, natListCompare x y = .eq ↔ x = y
  | [], [] => by simp [natListCompare]
  | [], _ :: _ => by simp [natListCompare]
  | _ :: _, [] => by simp [natListCompare]
  | a :: as, b :: bs => by
    simp only [natListCompare]
    rcases hab : compare a b with _ | _ | _
    · have := Nat.compare_eq_lt.mp hab
      simp only [List.cons.injEq]
      constructor
      · intro h; cases h
      · rintro ⟨rfl, -⟩; omega
    · have := Nat.compare_eq_eq.mp hab
      subst this
      simp [nlc_eq_iff as bs]
    · have := Nat.compare_eq_gt.mp hab
      simp only [List.cons.injEq]
      constructor
      · intro h; cases h
      · rintro ⟨rfl, -⟩; omega

theorem nlc_le_trans : ∀ x y z : List Nat,
    natListCompare x y ≠ .gt → natListCompare y z ≠ .gt → natListCompare x z ≠ .gt
  | [], y, z => by
    intro _ _
    cases z <;> simp [natListCompare]
  | _ :: _, [], _ => by
    intro hxy _
    simp [natListCompare] at hxy
  | _ :: _, _ :: _, [] => by
    intro _ hyz
    simp [natListCompare] at hyz
  | a :: as, b :: bs, c :: cs => by
    intro hxy hyz
    simp only [natListCompare] at hxy hyz ⊢
    rcases hab : compare a b with _ | _ | _ <;> rw [hab] at hxy
    · have h1 : a < b := Nat.compare_eq_lt.mp hab
      rcases hbc : compare b c with _ | _ | _ <;> rw [hbc] at hyz
      · have h2 : b < c := Nat.compare_eq_lt.mp hbc
        rw [Nat.compare_eq_lt.mpr (by omega)]
        simp
      · have h2 : b = c := Nat.compare_eq_eq.mp hbc
        rw [Nat.compare_eq_lt.mpr (by omega)]
        simp
      · exact absurd rfl hyz
    · have h1 : a = b := Nat.compare_eq_eq.mp hab
      subst h1
      rcases hac : compare a c with _ | _ | _ <;> rw [hac] at hyz
      · simp
      · exact nlc_le_trans as bs cs hxy hyz
      · exact absurd rfl hyz
    · exact absurd rfl hxy

theorem collUnit_inj (u v : Nat) (hp : collPrimary u = collPrimary v)
    (ht : collTertiary u = collTertiary v) : u = v := by
  unfold collPrimary at hp
  unfold collTertiary at ht
  split_ifs at hp <;> split_ifs at ht <;> omega

theorem coll_maps_inj : ∀ a b : JStr, a.map collPrimary = b.map collPrimary →
    a.map collTertiary = b.map collTertiary → a = b
  | [], [], _, _ => rfl
  | [], _ :: _, hp, _ => by simp at hp
  | _ :: _, [], hp, _ => by simp at hp
  | u :: us, v :: vs, hp, ht => by
    simp only [List.map_cons, List.cons.injEq] at hp ht
    rw [collUnit_inj u v hp.1 ht.1, coll_maps_inj us vs hp.2 ht.2]

theorem keyLe_total (a b : JStr) : keyLe a b = true ∨ keyLe b a = true := by
  unfold keyLe jsLocaleCompare
  rw [nlc_swap (b.map collPrimary) (a.map collPrimary)]
  cases hp : natListCompare (a.map collPrimary) (b.map collPrimary) with
  | lt => left; simp
  | gt => right; simp [Ordering.swap]
  | eq =>
    rw [nlc_swap (b.map collTertiary) (a.map collTertiary)]
    cases ht : natListCompare (a.map collTertiary) (b.map collTertiary) with
    | lt => left; simp
    | eq => left; simp [Ordering.swap]
    | gt => right; simp [Ordering.swap]

theorem keyLe_antisymm (a b : JStr) (h1 : keyLe a b = true) (h2 : keyLe b a = true) :
    a = b := by
  unfold keyLe at h1 h2
  simp only [decide_eq_true_eq] at h1 h2
  unfold jsLocaleCompare at h1 h2
  rw [nlc_swap (b.map collPrimary) (a.map collPrimary)] at h2
  rcases hp : natListCompare (a.map collPrimary) (b.map collPrimary) with _ | _ | _ <;>
    rw [hp] at h1 h2
  · simp [Ordering.swap] at h2
  · rw [nlc_swap (b.map collTertiary) (a.map collTertiary)] at h2
    rcases ht : natListCompare (a.map collTertiary) (b.map collTertiary) with _ | _ | _ <;>
      rw [ht] at h1 h2
    · simp [Ordering.swap] at h2
    · exact coll_maps_inj a b ((nlc_eq_iff _ _).mp hp) ((nlc_eq_iff _ _).mp ht)
    · simp at h1
  · simp at h1

theorem keyLe_trans (a b c : JStr) (h1 : keyLe a b = true) (h2 : keyLe b c = true) :
    keyLe a c = true := by
  unfold keyLe at h1 h2 ⊢
  simp only [decide_eq_true_eq] at h1 h2 ⊢
  unfold jsLocaleCompare at h1 h2 ⊢
  rcases hab : natListCompare (a.map collPrimary) (b.map collPrimary) with _ | _ | _ <;>
    rw [hab] at h1
  · rcases hbc : natListCompare (b.map collPrimary) (c.map collPrimary) with _ | _ | _ <;>
      rw [hbc] at h2
    · have hle : natListCompare (a.map collPrimary) (c.map collPrimary) ≠ .gt :=
        nlc_le_trans _ _ _ (by rw [hab]; simp) (by rw [hbc]; simp)
      rcases hac : natListCompare (a.map collPrimary) (c.map collPrimary) with _ | _ | _
      · simp
      · exfalso
        have hacEq := (nlc_eq_iff _ _).mp hac
        rw [← hacEq] at hbc
        have h4 := nlc_swap (a.map collPrimary) (b.map collPrimary)
        rw [hab, hbc] at h4
        simp [Ordering.swap] at h4
      · exact absurd hac hle
    · have hbcEq := (nlc_eq_iff _ _).mp hbc
      rw [show natListCompare (a.map collPrimary) (c.map collPrimary) = .lt from by
        rw [← hbcEq]; exact hab]
      simp
    · simp at h2
  · have habEq := (nlc_eq_iff _ _).mp hab
    rcases hbc : natListCompare (b.map collPrimary) (c.map collPrimary) with _ | _ | _ <;>
      rw [hbc] at h2
    · rw [show natListCompare (a.map collPrimary) (c.map collPrimary) = .lt from by
        rw [habEq]; exact hbc]
      simp
    · rw [show natListCompare (a.map collPrimary) (c.map collPrimary) = .eq from by
        rw [habEq]; exact hbc]
      exact nlc_le_trans _ _ _ h1 h2
    · simp at h2
  · simp at h1

theorem insertEntry_perm (e : JStr × BVal) : ∀ l, List.Perm (insertEntry e l) (e :: l)
  | [] => List.Perm.refl _
  | f :: fs => by
    unfold insertEntry
    by_cases h : keyLe e.1 f.1 = true
    · rw [if_pos h]
    · rw [if_neg h]
      exact ((insertEntry_perm e fs).cons f).trans (List.Perm.swap e f fs)

theorem sortPairs_perm : ∀ l, List.Perm (sortPairs l) l
  | [] => List.Perm.refl _
  | e :: es => ((insertEntry_perm e (sortPairs es)).trans ((sortPairs_perm es).cons e))

theorem insertEntry_mem {x e : JStr × BVal} {l : List (JStr × BVal)}
    (h : x ∈ insertEntry e l) : x = e ∨ x ∈ l := by
  have := (insertEntry_perm e l).mem_iff.mp h
  simpa using this

theorem insertEntry_sorted (e : JStr × BVal) :
    ∀ l, List.Pairwise (fun a b => keyLe a.1 b.1 = true) l →
      List.Pairwise (fun a b => keyLe a.1 b.1 = true) (insertEntry e l)
  | [], _ => by simp [insertEntry]
  | f :: fs, h => by
    rw [List.pairwise_cons] at h
    unfold insertEntry
    by_cases hc : keyLe e.1 f.1 = true
    · rw [if_pos hc]
      rw [List.pairwise_cons]
      refine ⟨?_, List.pairwise_cons.mpr h⟩
      intro x hx
      rcases List.mem_cons.mp hx with rfl | hx2
      · exact hc
      · exact keyLe_trans e.1 f.1 x.1 hc (h.1 x hx2)
    · rw [if_neg hc]
      have hf : keyLe f.1 e.1 = true := by
        rcases keyLe_total e.1 f.1 with h1 | h1
        · exact absurd h1 hc
        · exact h1
      rw [List.pairwise_cons]
      refine ⟨?_, insertEntry_sorted e fs h.2⟩
      intro x hx
      rcases insertEntry_mem hx with rfl | hx2
      · exact hf
      · exact h.1 x hx2

theorem sortPairs_sorted : ∀ l, List.Pairwise (fun a b => keyLe a.1 b.1 = true) (sortPairs l)
  | [] => List.Pairwise.nil
  | e :: es => insertEntry_sorted e (sortPairs es) (sortPairs_sorted es)

theorem insertEntry_of_le (e : JStr × BVal) :
    ∀ l, (∀ x ∈ l, keyLe e.1 x.1 = true) → insertEntry e l = e :: l
  | [], _ => rfl
  | f :: fs, h => by
    unfold insertEntry
    rw [if_pos (h f (by simp))]

theorem sortPairs_of_sorted : ∀ l, List.Pairwise (fun a b => keyLe a.1 b.1 = true) l →
    sortPairs l = l
  | [], _ => rfl
  | e :: es, h => by
    rw [List.pairwise_cons] at h
    unfold sortPairs
    rw [sortPairs_of_sorted es h.2, insertEntry_of_le e es h.1]

theorem sortPairs_idem (l : List (JStr × BVal)) : sortPairs (sortPairs l) = sortPairs l :=
  sortPairs_of_sorted _ (sortPairs_sorted l)

theorem keyMemB_iff (k : JStr) (l : List (JStr × BVal)) :
    keyMemB k l = true ↔ k ∈ l.map Prod.fst := by
  simp [keyMemB]

theorem keysNodupB_iff : ∀ l : List (JStr × BVal),
    keysNodupB l = true ↔ (l.map Prod.fst).Nodup
  | [] => by simp [keysNodupB]
  | e :: es => by
    simp only [keysNodupB, Bool.and_eq_true, Bool.not_eq_true', List.map_cons,
      List.nodup_cons]
    rw [keysNodupB_iff es]
    constructor
    · rintro ⟨h1, h2⟩
      refine ⟨fun hmem => ?_, h2⟩
      rw [← keyMemB_iff] at hmem
      rw [hmem] at h1
      cases h1
    · rintro ⟨h1, h2⟩
      refine ⟨?_, h2⟩
      rw [← Bool.not_eq_true, keyMemB_iff]
      exact h1

/-- Entry lists with the same multiset of entries and pairwise distinct
keys sort identically — the heart of encoding determinism. -/
theorem sorted_perm_nodupKeys_eq : ∀ (l₁ l₂ : List (JStr × BVal)), List.Perm l₁ l₂ →
    List.Pairwise (fun a b => keyLe a.1 b.1 = true) l₁ →
    List.Pairwise (fun a b => keyLe a.1 b.1 = true) l₂ →
    keysNodupB l₁ = true → l₁ = l₂
  | [], l₂, hp, _, _, _ => hp.nil_eq
  | a :: t₁, l₂, hp, hs₁, hs₂, hnd => by
    cases l₂ with
    | nil => exact absurd hp.symm (by simp)
    | cons b t₂ =>
      rw [List.pairwise_cons] at hs₁ hs₂
      have hab : a = b := by
        have hainl2 : a ∈ b :: t₂ := hp.mem_iff.mp (by simp)
        have hbinl1 : b ∈ a :: t₁ := hp.symm.mem_iff.mp (by simp)
        rcases List.mem_cons.mp hainl2 with h | hat2
        · exact h
        rcases List.mem_cons.mp hbinl1 with h | hbt1
        · exact h.symm
        have h1 : keyLe a.1 b.1 = true := hs₁.1 b hbt1
        have h2 : keyLe b.1 a.1 = true := hs₂.1 a hat2
        have hkeys : a.1 = b.1 := keyLe_antisymm a.1 b.1 h1 h2
        exfalso
        simp only [keysNodupB, Bool.and_eq_true, Bool.not_eq_true'] at hnd
        have := (keyMemB_eq_false_iff a.1 t₁).mp hnd.1 b hbt1
        exact this hkeys.symm
      subst hab
      have hperm2 : List.Perm t₁ t₂ := hp.cons_inv
      have hnd2 : keysNodupB t₁ = true := by
        simp only [keysNodupB, Bool.and_eq_true] at hnd
        exact hnd.2
      rw [sorted_perm_nodupKeys_eq t₁ t₂ hperm2 hs₁.2 hs₂.2 hnd2]

theorem keysNodupB_of_perm {l₁ l₂ : List (JStr × BVal)} (hp : List.Perm l₁ l₂)
    (h : keysNodupB l₁ = true) : keysNodupB l₂ = true := by
  rw [keysNodupB_iff] at h ⊢
  exact (hp.map Prod.fst).nodup_iff.mp h

/-- Key-preserving entry maps commute with the sort (the comparator looks
only at keys). -/
theorem insertEntry_map (f : (JStr × BVal) → (JStr × BVal))
    (hf : ∀ e, (f e).1 = e.1) (e : JStr × BVal) :
    ∀ l, insertEntry (f e) (l.map f) = (insertEntry e l).map f
  | [] => rfl
  | g :: gs => by
    simp only [List.map_cons, insertEntry]
    rw [hf e, hf g]
    by_cases hc : keyLe e.1 g.1 = true
    · rw [if_pos hc, if_pos hc]
      simp
    · rw [if_neg hc, if_neg hc]
      simp only [List.map_cons, List.cons.injEq, true_and]
      exact insertEntry_map f hf e gs

theorem sortPairs_map (f : (JStr × BVal) → (JStr × BVal))
    (hf : ∀ e, (f e).1 = e.1) :
    ∀ l, sortPairs (l.map f) = (sortPairs l).map f
  | [] => rfl
  | e :: es => by
    simp only [List.map_cons, sortPairs]
    rw [sortPairs_map f hf es, insertEntry_map f hf e]

/-!
## Canonicalization facts and the encoder's defining equations
-/

theorem toListE_canonEntries : ∀ es : BEntries,
    toListE (canonEntries es) = (toListE es).map (fun e => (e.1, canon e.2))
  | .nil => rfl
  | .cons k v es => by simp [canonEntries, toListE, toListE_canonEntries es]

theorem toListL_canonList : ∀ xs : BList, toListL (canonList xs) = (toListL xs).map canon
  | .nil => rfl
  | .cons v vs => by simp [canonList, toListL, toListL_canonList vs]

theorem keyMemB_map_values (f : (JStr × BVal) → (JStr × BVal))
    (hf : ∀ e, (f e).1 = e.1) (k : JStr) :
    ∀ L, keyMemB k (L.map f) = keyMemB k L
  | [] => rfl
  | e :: es => by
    unfold keyMemB
    simp only [List.map_cons, List.any_cons]
    rw [hf e]
    have ih := keyMemB_map_values f hf k es
    unfold keyMemB at ih
    rw [ih]

theorem keysNodupB_map_values (f : (JStr × BVal) → (JStr × BVal))
    (hf : ∀ e, (f e).1 = e.1) :
    ∀ L, keysNodupB (L.map f) = keysNodupB L
  | [] => rfl
  | e :: es => by
    simp only [List.map_cons, keysNodupB, hf e]
    rw [keyMemB_map_values f hf, keysNodupB_map_values f hf]

theorem wfE_ofListE : ∀ L, wfE (ofListE L) = L.all (fun e => wfV e.2)
  | [] => rfl
  | e :: es => by simp [ofListE, wfE, wfE_ofListE es]

theorem wfE_toListE : ∀ es : BEntries, wfE es = (toListE es).all (fun e => wfV e.2)
  | .nil => rfl
  | .cons k v es => by simp [toListE, wfE, wfE_toListE es]

mutual
/-- Canonicalization preserves well-formedness (it only permutes
dictionary entries). -/
theorem canon_wfV : ∀ v : BVal, wfV v = true → wfV (canon v) = true
  | .str _, h => h
  | .num _, h => h
  | .list xs, h => canon_wfL xs h
  | .dict es, h => by
    simp only [wfV, Bool.and_eq_true] at h
    simp only [canon, wfV, Bool.and_eq_true]
    constructor
    · rw [toListE_ofListE]
      apply keysNodupB_of_perm (sortPairs_perm (toListE (canonEntries es))).symm
      rw [toListE_canonEntries,
        keysNodupB_map_values (fun e => (e.1, canon e.2)) (fun e => rfl)]
      exact h.1
    · have hE := canon_wfE es h.2
      rw [wfE_toListE] at hE
      rw [wfE_ofListE, List.all_eq_true]
      intro e he
      exact (List.all_eq_true.mp hE) e ((sortPairs_perm _).mem_iff.mp he)

theorem canon_wfL : ∀ xs : BList, wfL xs = true → wfL (canonList xs) = true
  | .nil, h => h
  | .cons v vs, h => by
    simp only [wfL, Bool.and_eq_true] at h ⊢
    exact ⟨canon_wfV v h.1, canon_wfL vs h.2⟩

theorem canon_wfE : ∀ es : BEntries, wfE es = true → wfE (canonEntries es) = true
  | .nil, h => h
  | .cons k v es, h => by
    simp only [wfE, canonEntries, Bool.and_eq_true] at h ⊢
    exact ⟨canon_wfV v h.1, canon_wfE es h.2⟩
end

mutual
/-- Canonicalization is idempotent: `canon v` is a normal form.  Two values
are equal as JavaScript values (dictionaries compared as unordered
key/value maps) exactly when their canonical forms are equal. -/
theorem canon_idem : ∀ v : BVal, canon (canon v) = canon v
  | .str _ => rfl
  | .num _ => rfl
  | .list xs => by
    simp only [canon]
    rw [canonList_idem xs]
  | .dict es => by
    simp only [canon]
    have hS : toListE (canonEntries (ofListE (sortPairs (toListE (canonEntries es)))))
        = sortPairs (toListE (canonEntries es)) := by
      rw [toListE_canonEntries, toListE_ofListE,
        ← sortPairs_map (fun e => (e.1, canon e.2)) (fun e => rfl),
        ← toListE_canonEntries, canonEntries_idem es]
    rw [hS, sortPairs_idem]

theorem canonList_idem : ∀ xs : BList, canonList (canonList xs) = canonList xs
  | .nil => rfl
  | .cons v vs => by
    simp only [canonList]
    rw [canon_idem v, canonList_idem vs]

theorem canonEntries_idem : ∀ es : BEntries, canonEntries (canonEntries es) = canonEntries es
  | .nil => rfl
  | .cons k v es => by
    simp only [canonEntries]
    rw [canon_idem v, canonEntries_idem es]
end

theorem encodeRawEntries_ofListE : ∀ L : List (JStr × BVal),
    encodeRawEntries (ofListE L) = (L.map (fun e => encStr e.1 ++ encodeRaw e.2)).flatten
  | [] => rfl
  | e :: es => by
    simp only [ofListE, encodeRawEntries, List.map_cons, List.flatten_cons,
      encodeRawEntries_ofListE es, List.append_assoc]

theorem encodeRawList_toListL : ∀ xs : BList,
    encodeRawList xs = ((toListL xs).map encodeRaw).flatten
  | .nil => rfl
  | .cons v vs => by
    simp only [toListL, encodeRawList, List.map_cons, List.flatten_cons,
      encodeRawList_toListL vs]

/-- The string equation of `BencodeEncoder.encode`:
`encode(s) = ${getUTF8ByteLength(s)}:${s}`. -/
theorem encode_str_eq (s : JStr) :
    encode (.str s) = natToUnits (getUTF8ByteLength s) ++ 58 :: s := rfl

/-- The number equation of `BencodeEncoder.encode`: `encode(n) = i${n}e`. -/
theorem encode_num_eq (n : JsNumber) :
    encode (.num n) = 105 :: (numToUnits n ++ [101]) := rfl

/-- The array equation of `BencodeEncoder.encode`: `l` + each element
encoded, in order + `e`. -/
theorem encode_list_eq (xs : BList) :
    encode (.list xs) = 108 :: (((toListL xs).map encode).flatten ++ [101]) := by
  unfold encode
  simp only [canon, encodeRaw, encodeRawList_toListL, toListL_canonList, List.map_map]
  rfl

/-- The dictionary equation of `BencodeEncoder.encode`: `d` + the entries
sorted by `localeCompare` on keys, each `encode(key) + encode(value)`, in
order + `e` — exactly
`d${Object.entries(value).sort(([a],[b]) => a.localeCompare(b)).map(([k,v]) => encode(k)+encode(v)).join('')}e`. -/
theorem encode_dict_eq (es : BEntries) :
    encode (.dict es) = 100 ::
      (((sortPairs (toListE es)).map (fun e => encode (.str e.1) ++ encode e.2)).flatten
        ++ [101]) := by
  unfold encode
  simp only [canon, encodeRaw, encodeRawEntries_ofListE]
  rw [toListE_canonEntries, sortPairs_map (fun e => (e.1, canon e.2)) (fun e => rfl),
    List.map_map]
  rfl

theorem lookup_removePending : ∀ (l : List (String × PendingEntry)) (id : String),
    List.lookup id (removePending l id) = none
  | [], _ => rfl
  | (k, v) :: es, id => by
    unfold removePending
    rw [List.filter_cons]
    by_cases h : k = id
    · have hb : (!(k == id)) = false := by simp [h]
      rw [hb]
      simp only [Bool.false_eq_true, if_false]
      simpa [removePending] using lookup_removePending es id
    · have hb : (!(k == id)) = true := by simp [h]
      rw [hb]
      simp only [if_true]
      simp only [List.lookup]
      have hbe : (id == k) = false := by
        simp only [beq_eq_false_iff_ne]
        exact fun hc => h hc.symm
      rw [hbe]
      simpa [removePending] using lookup_removePending es id

/-!
## The claims
-/

/-- C1: For every ProtocolValue tree without cycles — Text, Integer, List,
Map with unique Text keys (`wfV`) — decoding the result of encoding it
from offset 0 succeeds, and the decoded value equals the original as a
JavaScript value: `decode(encode(v)) == v`.  Equality of JavaScript
values compares dictionaries as unordered key/value maps, which is
equality of `canon`ical forms (`canon` only reorders dictionary entries
and is idempotent, `canon_idem`). -/
theorem C1_decode_encode_roundtrip (v : BVal) (hwf : wfV v = true) :
    ∃ w, bdecode (encode v) = .ok w ∧ canon w = canon v := by
  refine ⟨canon v, ?_, canon_idem v⟩
  unfold bdecode encode
  have h := decodeWithLength_encodeRaw (canon v) []
  rw [List.append_nil] at h
  rw [h]
  simp only [Except.map]
  rw [decRaw_id (canon v) (canon_wfV v hwf)]

theorem C1_witness : wfV c1Sample = true ∧
    ∃ w, bdecode (encode c1Sample) = .ok w ∧ canon w = canon c1Sample :=
  ⟨rfl, C1_decode_encode_roundtrip c1Sample rfl⟩

/-- C2 — the code violates this claim.  Decoding the buffer `"5:hel"`,
whose declared byte length 5 exceeds the 3 bytes available after the
colon, does not fail with the `String length exceeds data`
(TruncatedString) error: the scanning loop stops at the end of the data
and the dead bounds check `end > this.data.length` never fires, so decode
succeeds, returning the 3-unit string `"hel"` — shorter than declared —
and reporting all 5 units consumed.  (For contrast, the same truncation
inside an encoded Map is rescued by the enclosing dictionary loop: the
10-unit prefix of `"d2:id5:helloe"` still fails, and the full buffer
decodes to the Map, so the split-buffer scenario is saved only by the
outer structure, not by the claimed string check.) -/
theorem C2_truncated_string_succeeds :
    decodeWithLength (su "5:hel") = .ok (.str (su "hel"), 5) ∧
    (su "hel").length = 3 ∧
    decodeWithLength (su "d2:id5:hel") = .error .unterminatedDictionary ∧
    decodeWithLength (su "d2:id5:helloe")
      = .ok (bdict [(su "id", .str (su "hello"))], 13) :=
  ⟨rfl, rfl, rfl, rfl⟩

/-- C3 — the code violates this claim.  For the one-character string
U+1F600 the true UTF-8 byte count is 4, but `getUTF8ByteLength` counts
each UTF-16 surrogate half separately as 3 bytes (the function's 4-byte
branch is unreachable because `charCodeAt` never returns ≥ 65536), so the
encoder emits the length prefix `6`, not the true byte count 4.
`bmp_byte_count_agrees` below confirms the two counts agree on all
surrogate-free strings, locating the defect exactly at supplementary
characters. -/
theorem C3_surrogate_byte_count :
    getUTF8ByteLength c3Emoji = 6 ∧
    utf8TrueByteLength c3Emoji = 4 ∧
    encode (.str c3Emoji) = 54 :: 58 :: c3Emoji ∧
    getUTF8ByteLength c3Emoji ≠ utf8TrueByteLength c3Emoji :=
  ⟨rfl, rfl, rfl, by decide⟩

/-- On strings without surrogate code units the code's byte count is the
true UTF-8 byte count. -/
theorem bmp_byte_count_agrees : ∀ s : JStr,
    (∀ u ∈ s, u < 0xD800 ∨ (0xE000 ≤ u ∧ u < 0x10000)) →
    getUTF8ByteLength s = utf8TrueByteLength s
  | [], _ => rfl
  | [u], _ => rfl
  | u :: u2 :: rest, h => by
    have hu := h u (by simp)
    unfold utf8TrueByteLength codePointsOf
    rw [if_neg (by omega)]
    have ih := bmp_byte_count_agrees (u2 :: rest) (fun x hx => h x (by simp [hx]))
    unfold utf8TrueByteLength at ih
    rw [getUTF8ByteLength_cons, List.map_cons, List.sum_cons, ← ih]
    have : utf8CpLen u = utf8UnitLen u := rfl
    omega

/-- C4: Dictionary encoding emits its key/value pairs in ascending key
order — the order of the `localeCompare` collation, which coincides with
lexicographic order on the lowercase-ASCII keys of the nREPL protocol —
regardless of insertion order: (i) `encode` satisfies its source
equation, emitting the key-sorted permutation of the entries
(`sortPairs`), whose key sequence is ascending; (ii) any two maps with
identical key/value pairs in different insertion order encode to
identical byte sequences; (iii) concretely, `{id:"a1", op:"clone"}`
encodes, in either insertion order, to exactly `d2:id2:a12:op5:clonee`. -/
theorem C4_dict_canonical_order :
    (∀ es : BEntries,
      encode (.dict es) = 100 ::
        (((sortPairs (toListE es)).map (fun e => encode (.str e.1) ++ encode e.2)).flatten
          ++ [101]) ∧
      List.Pairwise (fun a b => keyLe a.1 b.1 = true) (sortPairs (toListE es))) ∧
    (∀ es₁ es₂ : BEntries, List.Perm (toListE es₁) (toListE es₂) →
      keysNodupB (toListE es₁) = true → encode (.dict es₁) = encode (.dict es₂)) ∧
    encode (bdict [(su "id", .str (su "a1")), (su "op", .str (su "clone"))])
      = su "d2:id2:a12:op5:clonee" ∧
    encode (bdict [(su "op", .str (su "clone")), (su "id", .str (su "a1"))])
      = su "d2:id2:a12:op5:clonee" := by
  refine ⟨fun es => ⟨encode_dict_eq es, sortPairs_sorted _⟩, ?_, rfl, rfl⟩
  intro es₁ es₂ hperm hnd
  have hpermC : List.Perm (toListE (canonEntries es₁)) (toListE (canonEntries es₂)) := by
    rw [toListE_canonEntries, toListE_canonEntries]
    exact hperm.map _
  have hndC : keysNodupB (sortPairs (toListE (canonEntries es₁))) = true := by
    apply keysNodupB_of_perm (sortPairs_perm _).symm
    rw [toListE_canonEntries,
      keysNodupB_map_values (fun e => (e.1, canon e.2)) (fun e => rfl)]
    exact hnd
  have key : sortPairs (toListE (canonEntries es₁)) = sortPairs (toListE (canonEntries es₂)) :=
    sorted_perm_nodupKeys_eq _ _
      ((sortPairs_perm _).trans (hpermC.trans (sortPairs_perm _).symm))
      (sortPairs_sorted _) (sortPairs_sorted _) hndC
  unfold encode
  simp only [canon]
  rw [key]

theorem C4_witness :
    List.Perm (toListE (ofListE [(su "id", BVal.str (su "a1")),
                                 (su "op", BVal.str (su "clone"))]))
              (toListE (ofListE [(su "op", BVal.str (su "clone")),
                                 (su "id", BVal.str (su "a1"))])) ∧
    keysNodupB (toListE (ofListE [(su "id", BVal.str (su "a1")),
                                  (su "op", BVal.str (su "clone"))])) = true ∧
    encode (.dict (ofListE [(su "id", BVal.str (su "a1")),
                            (su "op", BVal.str (su "clone"))]))
      = encode (.dict (ofListE [(su "op", BVal.str (su "clone")),
                                (su "id", BVal.str (su "a1"))])) :=
  ⟨List.Perm.swap (su "op", BVal.str (su "clone")) (su "id", BVal.str (su "a1")) [],
   rfl,
   C4_dict_canonical_order.2.1 _ _
     (List.Perm.swap (su "op", BVal.str (su "clone")) (su "id", BVal.str (su "a1")) [])
     rfl⟩

/-- C9: For every pair of encoded well-formed Maps concatenated into one
buffer, decoding from offset 0 yields (a value equal as a JavaScript
value to) the first Map with a consumed-unit count exactly the length of
the first encoding — pointing at the start of the second — and decoding
the remaining tail yields the second Map; and concretely, decoding
`"5:hello"` from the start yields `"hello"` with processed length 7. -/
theorem C9_streaming_boundaries :
    (∀ es₁ es₂ : BEntries, wfV (.dict es₁) = true → wfV (.dict es₂) = true →
      ∃ w₁ w₂,
        decodeWithLength (encode (.dict es₁) ++ encode (.dict es₂))
          = .ok (w₁, (encode (.dict es₁)).length) ∧
        canon w₁ = canon (.dict es₁) ∧
        decodeWithLength ((encode (.dict es₁) ++ encode (.dict es₂)).drop
            (encode (.dict es₁)).length)
          = .ok (w₂, (encode (.dict es₂)).length) ∧
        canon w₂ = canon (.dict es₂)) ∧
    decodeWithLength (su "5:hello") = .ok (.str (su "hello"), 7) := by
  refine ⟨?_, rfl⟩
  intro es₁ es₂ h₁ h₂
  refine ⟨canon (.dict es₁), canon (.dict es₂), ?_, canon_idem _, ?_, canon_idem _⟩
  · have h := decodeWithLength_encodeRaw (canon (.dict es₁)) (encode (.dict es₂))
    rw [decRaw_id _ (canon_wfV _ h₁)] at h
    exact h
  · rw [show encode (.dict es₁) ++ encode (.dict es₂)
      = encodeRaw (canon (.dict es₁)) ++ encode (.dict es₂) from rfl,
      show (encode (.dict es₁)).length = (encodeRaw (canon (.dict es₁))).length from rfl,
      List.drop_left]
    have h := decodeWithLength_encodeRaw (canon (.dict es₂)) []
    rw [List.append_nil, decRaw_id _ (canon_wfV _ h₂)] at h
    exact h

theorem C9_witness : wfV (.dict c9FirstMap) = true ∧ wfV (.dict c9SecondMap) = true ∧
    ∃ w₁ w₂,
      decodeWithLength (encode (.dict c9FirstMap) ++ encode (.dict c9SecondMap))
        = .ok (w₁, (encode (.dict c9FirstMap)).length) ∧
      canon w₁ = canon (.dict c9FirstMap) ∧
      decodeWithLength ((encode (.dict c9FirstMap) ++ encode (.dict c9SecondMap)).drop
          (encode (.dict c9FirstMap)).length)
        = .ok (w₂, (encode (.dict c9SecondMap)).length) ∧
      canon w₂ = canon (.dict c9SecondMap) :=
  ⟨rfl, rfl, C9_streaming_boundaries.1 c9FirstMap c9SecondMap rfl rfl⟩

theorem decodeInteger_no_e (s : JStr) (hmem : (101 : Nat) ∉ s) :
    decodeInteger (105 :: (s ++ [101])) 0 = .ok (parseIntJS s, s.length + 2) := by
  unfold decodeInteger
  have h1 : indexOfFrom (105 :: (s ++ [101])) 101 (0 + 1) = some (1 + s.length) := by
    have h := indexOfFrom_mid ([105] : JStr) s ([] : JStr) 101 hmem
    simpa using h
  simp only [h1]
  have h2 : jsSlice (105 :: (s ++ [101])) (0 + 1) (1 + s.length) = s := by
    have h := jsSlice_mid ([105] : JStr) s ((101 : Nat) :: ([] : JStr))
    simpa using h
  rw [h2]
  congr 1
  simp
  omega

theorem decodeInteger_unterminated (s : JStr) (hmem : (101 : Nat) ∉ s) :
    decodeInteger (105 :: s) 0 = .error .unterminatedInteger := by
  unfold decodeInteger
  have h1 : indexOfFrom (105 :: s) 101 (0 + 1) = none := by
    have h := indexOfFrom_not_mem ([105] : JStr) s 101 hmem
    simpa using h
  simp only [h1]

/-- C10 (implicit behaviour of `decodeInteger`): integer decoding errors
only when the terminating `e` is missing; the digits between `i` and `e`
are never validated.  For every buffer `i` + s + `e` whose first `e`
terminates `s`, decode succeeds with `parseInt(s, 10)` — so non-numeric
content such as `"iXe"` yields `NaN` and non-canonical content such as
`"i007e"` yields `7`, both without error, at the public decode
interface — while a buffer `i` + s with no `e` at all fails with
`Unterminated integer`. -/
theorem C10_integer_digits_unvalidated :
    (∀ s : JStr, (∀ u ∈ s, u ≠ 101) →
      bdecode (105 :: (s ++ [101])) = .ok (.num (parseIntJS s)) ∧
      bdecode (105 :: s) = .error .unterminatedInteger) ∧
    bdecode (su "iXe") = .ok (.num .nan) ∧
    bdecode (su "i007e") = .ok (.num (.int 7)) := by
  refine ⟨?_, rfl, rfl⟩
  intro s hs
  have hmem : (101 : Nat) ∉ s := fun hm => (hs 101 hm) rfl
  constructor
  · unfold bdecode decodeWithLength
    rw [show 2 * (105 :: (s ++ [101]) : JStr).length + 2
        = (2 * (105 :: (s ++ [101]) : JStr).length + 1) + 1 from rfl]
    simp only [decodeFrom, List.getElem?_cons_zero]
    rw [if_pos trivial, decodeInteger_no_e s hmem]
    simp [Except.map]
  · unfold bdecode decodeWithLength
    rw [show 2 * (105 :: s : JStr).length + 2
        = (2 * (105 :: s : JStr).length + 1) + 1 from rfl]
    simp only [decodeFrom, List.getElem?_cons_zero]
    rw [if_pos trivial, decodeInteger_unterminated s hmem]
    simp [Except.map]

theorem C10_witness : (∀ u ∈ (su "0x7" : JStr), u ≠ 101) ∧
    bdecode (105 :: (su "0x7" ++ [101])) = .ok (.num (parseIntJS (su "0x7"))) ∧
    bdecode (105 :: su "0x7") = .error .unterminatedInteger :=
  ⟨by decide,
   (C10_integer_digits_unvalidated.1 (su "0x7") (by decide)).1,
   (C10_integer_digits_unvalidated.1 (su "0x7") (by decide)).2⟩

theorem collectTruthy_ne_nil {rs : List NReplResponse} {f : NReplResponse → Option String}
    (h : ∃ r ∈ rs, jsTruthyS (f r) = true) : (collectTruthy (rs.map f)).length > 0 := by
  obtain ⟨r, hr, ht⟩ := h
  have hmem : ∃ s, s ∈ collectTruthy (rs.map f) := by
    rcases hfr : f r with _ | s
    · rw [hfr] at ht; simp [jsTruthyS] at ht
    · refine ⟨s, ?_⟩
      unfold collectTruthy
      rw [List.mem_filterMap]
      exact ⟨f r, List.mem_map_of_mem f hr, by rw [hfr] at ht ⊢; rw [if_pos ht]⟩
  obtain ⟨s, hsm⟩ := hmem
  exact List.length_pos.mpr (List.ne_nil_of_mem hsm)

theorem collectTruthy_nil {rs : List NReplResponse} {f : NReplResponse → Option String}
    (h : ∀ r ∈ rs, jsTruthyS (f r) = false) : collectTruthy (rs.map f) = [] := by
  unfold collectTruthy
  rw [List.filterMap_eq_nil_iff]
  intro o ho
  rw [List.mem_map] at ho
  obtain ⟨r, hr, rfl⟩ := ho
  rw [if_neg (by rw [h r hr]; exact Bool.false_ne_true)]

/-- C5: The outcome of `eval`'s response processing: if any accumulated
response carries a (truthy) error field — taken as ex, then root-ex, then
err, first present per response — the call fails with an error joining
exactly those error texts in arrival order with newlines, and no output
is returned; otherwise it returns the per-response value/out
contributions joined in arrival order with newlines.  The two outcomes
are mutually exclusive (`evalOutcome` is a sum, and the two universal
clauses cover all response lists).  Concretely,
`[{id:"x", value:"42"}, {id:"x", status:["done"]}]` resolves to `"42"`,
and the singleton `{id:"x", ex:"boom", status:["done"]}` fails with
message `"boom"`. -/
theorem C5_eval_error_or_output :
    (∀ rs : List NReplResponse, (∃ r ∈ rs, jsTruthyS (errField r) = true) →
      evalOutcome rs = .error (String.intercalate "\n" (collectTruthy (rs.map errField)))) ∧
    (∀ rs : List NReplResponse, (∀ r ∈ rs, jsTruthyS (errField r) = false) →
      evalOutcome rs = .ok (String.intercalate "\n" (collectTruthy (rs.map outField)))) ∧
    evalOutcome [respVal42, respDoneX] = .ok "42" ∧
    evalOutcome [respBoom] = .error "boom" := by
  refine ⟨?_, ?_, rfl, rfl⟩
  · intro rs h
    unfold evalOutcome
    rw [if_pos (collectTruthy_ne_nil h)]
  · intro rs h
    unfold evalOutcome
    rw [if_neg (by rw [collectTruthy_nil h]; simp)]

theorem C5_witness :
    (∃ r ∈ [respBoom], jsTruthyS (errField r) = true) ∧
    evalOutcome [respBoom]
      = .error (String.intercalate "\n" (collectTruthy ([respBoom].map errField))) ∧
    (∀ r ∈ [respVal42], jsTruthyS (errField r) = false) ∧
    evalOutcome [respVal42]
      = .ok (String.intercalate "\n" (collectTruthy ([respVal42].map outField))) :=
  ⟨⟨respBoom, by simp, rfl⟩,
   C5_eval_error_or_output.1 _ ⟨respBoom, by simp, rfl⟩,
   by decide,
   C5_eval_error_or_output.2.1 _ (by decide)⟩

/-- C6 — the code violates this claim.  The socket `close` and `error`
handlers only set `connected` and `lastError`; they do not reject any
pending request (there is no ConnectionLost failure anywhere in the
client).  After a close or error event every previously pending request
is still in the pending table and nothing new is settled, so the caller
keeps waiting until the 30-second `RequestTimeout` fires — contradicting
the claim that every pending request is failed at the event.  Shown for
all states and at a concrete one-pending-request state. -/
theorem C6_close_resolves_nothing :
    (∀ s : ClientState, (onSocketClose s).pending = s.pending ∧
      (onSocketClose s).settled = s.settled) ∧
    (∀ (s : ClientState) (msg : String), (onSocketError s msg).pending = s.pending ∧
      (onSocketError s msg).settled = s.settled) ∧
    (onSocketClose c6State).pending = c6State.pending ∧
    c6State.pending ≠ [] ∧
    (onSocketClose c6State).settled = [] :=
  ⟨fun _ => ⟨rfl, rfl⟩, fun _ _ => ⟨rfl, rfl⟩, rfl, by simp [c6State], rfl⟩

/-- C7 counterexample: exactly one of these two accumulated responses
carries a new-session field, yet the clone call fails (and leaves the
session id untouched), because `clone` reads `responses[0]['new-session']`
— only the first response — so the position of the new-session field does
matter, contrary to the claim. -/
theorem C7_counterexample :
    c7Responses.countP (fun r => jsTruthyS r.newSession) = 1 ∧
    cloneOutcome c7Responses = .error .noNewSession ∧
    sessionAfterClone (some "old") c7Responses = some "old" :=
  ⟨rfl, rfl, rfl⟩

/-- C7 (amended): a session-establishment call succeeds exactly when the
FIRST accumulated response carries a (truthy) new-session field; it then
returns that session id and unconditionally replaces the client's current
session id with it.  Otherwise — including when only a later response
carries the field — it fails with a SessionEstablishmentFailure and the
session id is unchanged. -/
theorem C7_clone_uses_first_response (r : NReplResponse) (rest : List NReplResponse)
    (prev : Option String) :
    (jsTruthyS r.newSession = true →
      cloneOutcome (r :: rest) = .ok (r.newSession.getD "") ∧
      sessionAfterClone prev (r :: rest) = some (r.newSession.getD "")) ∧
    (jsTruthyS r.newSession = false →
      cloneOutcome (r :: rest) = .error .noNewSession ∧
      sessionAfterClone prev (r :: rest) = prev) := by
  constructor
  · intro h
    constructor
    · simp [cloneOutcome, h]
    · simp [sessionAfterClone, cloneOutcome, h]
  · intro h
    constructor
    · simp [cloneOutcome, h]
    · simp [sessionAfterClone, cloneOutcome, h]

theorem C7_witness :
    jsTruthyS c7GoodResponse.newSession = true ∧
    (cloneOutcome [c7GoodResponse] = .ok (c7GoodResponse.newSession.getD "") ∧
      sessionAfterClone none [c7GoodResponse]
        = some (c7GoodResponse.newSession.getD "")) ∧
    jsTruthyS emptyResponse.newSession = false ∧
    (cloneOutcome [emptyResponse] = .error .noNewSession ∧
      sessionAfterClone (some "old") [emptyResponse] = some "old") :=
  ⟨rfl, (C7_clone_uses_first_response c7GoodResponse [] none).1 rfl,
   rfl, (C7_clone_uses_first_response emptyResponse [] (some "old")).2 rfl⟩

/-- C8: When a pending request's 30-second deadline fires, the caller is
failed with `RequestTimeout` carrying the original request, the entry is
removed from the pending table at that moment, and a late-arriving
response bearing the same correlation id has no effect on the state. -/
theorem C8_timeout_removes_pending (s : ClientState) (id : String) (e : PendingEntry)
    (h : List.lookup id s.pending = some e) :
    (onTimeout s id).settled = s.settled ++ [(id, .error (.requestTimeout e.message))] ∧
    List.lookup id (onTimeout s id).pending = none ∧
    (∀ r : NReplResponse, r.id = some id → onResponse (onTimeout s id) r = onTimeout s id) := by
  have hs : onTimeout s id =
      { s with pending := removePending s.pending id,
               settled := s.settled ++ [(id, .error (.requestTimeout e.message))],
               lastError := some "nREPL request timed out" } := by
    unfold onTimeout
    rw [h]
  have hlook : List.lookup id (onTimeout s id).pending = none := by
    rw [hs]
    exact lookup_removePending s.pending id
  refine ⟨by rw [hs], hlook, ?_⟩
  intro r hr
  unfold onResponse
  rw [hr]
  cases hid : id.isEmpty with
  | true => simp [jsTruthyS, hid]
  | false =>
    simp only [jsTruthyS, hid, Bool.not_false, if_true, Option.getD_some]
    rw [hlook]

theorem C8_witness :
    List.lookup "a" c8State.pending = some c8Entry ∧
    ((onTimeout c8State "a").settled
        = c8State.settled ++ [("a", .error (.requestTimeout c8Entry.message))] ∧
      List.lookup "a" (onTimeout c8State "a").pending = none ∧
      (∀ r : NReplResponse, r.id = some "a" →
        onResponse (onTimeout c8State "a") r = onTimeout c8State "a")) :=
  ⟨rfl, C8_timeout_removes_pending c8State "a" c8Entry rfl⟩
